import Mathlib

/-!
Verification of the fixed-point quantization core of pyfda
(`pyfda/libs/pyfda_fix_lib.py` and
`pyfda/fixpoint_widgets/iir_df1/iir_df1_pyfixp.py`) against its
natural-language specification.

The Python code is shallowly embedded: real/float values are modelled as
exact rationals (`ℚ`), numpy elementwise operations as `List ℚ` maps,
strings as `List Char`, and raised exceptions as `Except String`.
The global filter-bank flags `fb.fil[0]['qfrmt']` and `fb.fil[0]['fx_base']`
are passed as explicit parameters (`QFrmt`, `FxBase`); the mutable overflow
counters of a `Fixed` instance are threaded explicitly as a `Counters` value.
-/

/-- Quantization method, the value of `q_dict['quant']`
    ('floor', 'round', 'fix', 'ceil', 'rint', 'dsm', 'none'). -/
inductive QuantMode
  | floor | round | fix | ceil | rint | dsm | none
deriving DecidableEq, Repr

/-- Overflow method, the value of `q_dict['ovfl']` ('wrap', 'sat', 'none'). -/
inductive OvflMode
  | wrap | sat | none
deriving DecidableEq, Repr

/-- Global quantization format `fb.fil[0]['qfrmt']`: fractional ('qfrac'),
    integer ('qint') or unquantized float ('float'). -/
inductive QFrmt
  | qfrac | qint | float
deriving DecidableEq, Repr

/-- Global display base `fb.fil[0]['fx_base']` ('dec', 'bin', 'hex', 'csd'). -/
inductive FxBase
  | dec | bin | hex | csd
deriving DecidableEq, Repr

/-- The `scaling` argument of `Fixed.fixp`; any string other than
    'mult', 'div', 'multdiv' leaves the value unscaled (modelled `noscale`). -/
inductive ScalingMode
  | mult | div | multdiv | noscale
deriving DecidableEq, Repr

/-- The quantization dictionary `q_dict` of one `Fixed` instance, restricted
    to the numerically relevant keys 'WI', 'WF', 'quant', 'ovfl'.
    `WI` and `WF` are stored as (possibly negative) integers exactly as after
    `set_qdict` sanitization (`int()` for WI, `abs(int())` for WF). -/
structure QDict where
  WI : ℤ
  WF : ℤ
  quant : QuantMode
  ovfl : OvflMode
deriving DecidableEq, Repr

/-- The mutable counter state of a `Fixed` instance:
    `N` (samples processed), `N_over_pos`, `N_over_neg`, `N_over`. -/
structure Counters where
  N : ℕ
  N_over_pos : ℕ
  N_over_neg : ℕ
  N_over : ℕ
deriving DecidableEq, Repr

/-- Counter state after `resetN()`: all four counters zeroed. -/
def resetN : Counters := ⟨0, 0, 0, 0⟩

/-- Models `set_qdict` sanitization of the word lengths (pyfda_fix_lib.py
    lines 509-511): `WI = int(WI)` (identity on integers, no absolute value)
    and `WF = abs(int(WF))`. -/
def set_qdict_wordlengths (WI WF : ℤ) : ℤ × ℤ := (WI, |WF|)

/-- Sanitize a whole quantization dict the way `set_qdict` does. -/
def sanitizeQ (q : QDict) : QDict :=
  { q with WI := (set_qdict_wordlengths q.WI q.WF).1,
           WF := (set_qdict_wordlengths q.WI q.WF).2 }

/-- Models `np.floor` on an exact rational. -/
def npFloor (y : ℚ) : ℚ := (⌊y⌋ : ℤ)

/-- Models `np.ceil` on an exact rational. -/
def npCeil (y : ℚ) : ℚ := (⌈y⌉ : ℤ)

/-- Models `np.fix`: round towards zero (truncation). -/
def npTrunc (y : ℚ) : ℚ := if 0 ≤ y then (⌊y⌋ : ℤ) else (⌈y⌉ : ℤ)

/-- Models `np.round` / `np.rint` as an integer: round half to even. -/
def npRoundInt (y : ℚ) : ℤ :=
  let f := ⌊y⌋
  let r := y - (f : ℚ)
  if r < 1/2 then f
  else if 1/2 < r then f + 1
  else if Even f then f else f + 1

/-- Models `np.round` / `np.rint` (round half to even) as a rational. -/
def npRound (y : ℚ) : ℚ := (npRoundInt y : ℚ)

/-- Models `np.sign`. -/
def npSign (y : ℚ) : ℚ := if 0 < y then 1 else if y < 0 then -1 else 0

/-- The `scale` factor set at the start of `fixp` (lines 623-626):
    `2**WF` in integer format 'qint', else 1. -/
def scaleOf (fmt : QFrmt) (q : QDict) : ℚ :=
  if fmt = QFrmt.qint then (2 : ℚ) ^ q.WF else 1

/-- The derived attribute `self.LSB` (set_qdict lines 514-519). -/
def LSBof (fmt : QFrmt) (q : QDict) : ℚ :=
  if fmt = QFrmt.qint then 1 else (2 : ℚ) ^ (-q.WF)

/-- The derived attribute `self.MSB` (set_qdict lines 514-519). -/
def MSBof (fmt : QFrmt) (q : QDict) : ℚ :=
  if fmt = QFrmt.qint then (2 : ℚ) ^ (q.WI + q.WF - 1) else (2 : ℚ) ^ (q.WI - 1)

/-- The derived attribute `self.MAX = 2*MSB - LSB` (set_qdict line 521). -/
def MAXof (fmt : QFrmt) (q : QDict) : ℚ := 2 * MSBof fmt q - LSBof fmt q

/-- The derived attribute `self.MIN = -2*MSB` (set_qdict line 522). -/
def MINof (fmt : QFrmt) (q : QDict) : ℚ := -2 * MSBof fmt q

/-- The requantization step of `fixp` (lines 707-734) applied to the
    already rescaled value `y * 2**WF`; total function covering all modes
    that do not raise ('dsm' raises when the deltasigma toolbox is absent,
    which is guarded separately by `quantRaises`). For 'dsm' the value
    returned here is irrelevant. -/
def quantApply (qm : QuantMode) (y : ℚ) : ℚ :=
  match qm with
  | QuantMode.floor => npFloor y
  | QuantMode.round => npRound y
  | QuantMode.fix => npTrunc y
  | QuantMode.ceil => npCeil y
  | QuantMode.rint => npRound y
  | QuantMode.dsm => y
  | QuantMode.none => y

/-- Whether the requantization step raises an exception: only 'dsm'
    (deltasigma toolbox not installed, lines 717-732). Unknown mode strings
    also raise but are outside the closed enumeration modelled here. -/
def quantRaises (qm : QuantMode) : Bool := qm = QuantMode.dsm

/-- The overflow-handling step of `fixp` (lines 747-773), value part only,
    applied to the requantized value `yq`:
    'none' passes through; 'sat' replaces positive overflows by MAX and then
    negative overflows by MIN (two sequential `np.where`); 'wrap' replaces
    any overflow by `yq - 4*MSB*fix((sign(yq)*2*MSB + yq)/(4*MSB))`. -/
def ovflApply (fmt : QFrmt) (q : QDict) (yq : ℚ) : ℚ :=
  match q.ovfl with
  | OvflMode.none => yq
  | OvflMode.sat =>
    let over_neg := decide (yq < MINof fmt q)
    let over_pos := decide (MAXof fmt q < yq)
    let yq1 := if over_pos then MAXof fmt q else yq
    if over_neg then MINof fmt q else yq1
  | OvflMode.wrap =>
    let over_neg := decide (yq < MINof fmt q)
    let over_pos := decide (MAXof fmt q < yq)
    let M := MSBof fmt q
    if over_pos || over_neg then
      yq - 4 * M * npTrunc ((npSign yq * 2 * M + yq) / (4 * M))
    else yq

/-- The requantized (pre-overflow) value of one element inside `fixp`:
    input scaling (step 2), multiply by `2**WF`, requantize, divide by
    `2**WF` (step 3). -/
def fixpQuantized (fmt : QFrmt) (q : QDict) (sc : ScalingMode) (y : ℚ) : ℚ :=
  let scale := scaleOf fmt q
  let y1 := if sc = ScalingMode.mult ∨ sc = ScalingMode.multdiv then y * scale else y
  let y2 := y1 * (2 : ℚ) ^ q.WF
  quantApply q.quant y2 / (2 : ℚ) ^ q.WF

/-- The complete per-element value computed by `Fixed.fixp`
    (steps 2-5 of lines 616-791): scaling, requantization, overflow
    handling and output scaling. The counter updates are modelled
    separately by `fixpCnt` / `fixpCntList`; the returned value does not
    depend on them in the source either. -/
def fixpVal (fmt : QFrmt) (q : QDict) (sc : ScalingMode) (y : ℚ) : ℚ :=
  let yq := ovflApply fmt q (fixpQuantized fmt q sc y)
  if sc = ScalingMode.div ∨ sc = ScalingMode.multdiv then yq / scaleOf fmt q
  else yq

/-- Overflow classification of one element: negative overflow flag
    `yq < MIN` (line 753). -/
def overNeg (fmt : QFrmt) (q : QDict) (sc : ScalingMode) (y : ℚ) : Bool :=
  decide (fixpQuantized fmt q sc y < MINof fmt q)

/-- Overflow classification of one element: positive overflow flag
    `yq > MAX` (line 754). -/
def overPos (fmt : QFrmt) (q : QDict) (sc : ScalingMode) (y : ℚ) : Bool :=
  decide (MAXof fmt q < fixpQuantized fmt q sc y)

/-- Counter update of a scalar `fixp` call (lines 678, 747-760):
    `N += 1`; with `ovfl == 'none'` all overflow counters are set to zero,
    otherwise `N_over_neg`/`N_over_pos` are incremented by the overflow
    flags and `N_over` is assigned `N_over_neg + N_over_pos`. -/
def fixpCnt (fmt : QFrmt) (q : QDict) (sc : ScalingMode) (y : ℚ) (c : Counters) :
    Counters :=
  let c1 : Counters := { c with N := c.N + 1 }
  if q.ovfl = OvflMode.none then
    { c1 with N_over_pos := 0, N_over_neg := 0, N_over := 0 }
  else
    let nn := c1.N_over_neg + (if overNeg fmt q sc y then 1 else 0)
    let np := c1.N_over_pos + (if overPos fmt q sc y then 1 else 0)
    { c1 with N_over_neg := nn, N_over_pos := np, N_over := nn + np }

/-- Models a scalar call `Fixed.fixp(y, scaling)` on a numeric input,
    returning the quantized value together with the updated counter state;
    'dsm' quantization raises (deltasigma toolbox absent). -/
def fixpSt (fmt : QFrmt) (q : QDict) (sc : ScalingMode) (y : ℚ) (c : Counters) :
    Except String (ℚ × Counters) :=
  if quantRaises q.quant then Except.error "deltasigma Toolbox not found"
  else Except.ok (fixpVal fmt q sc y, fixpCnt fmt q sc y c)

/-- Counter update of a vectorized `fixp` call on an array (lines 639,
    747-760): `N += size`; overflow counts are summed over the elements. -/
def fixpCntList (fmt : QFrmt) (q : QDict) (sc : ScalingMode) (ys : List ℚ)
    (c : Counters) : Counters :=
  let c1 : Counters := { c with N := c.N + ys.length }
  if q.ovfl = OvflMode.none then
    { c1 with N_over_pos := 0, N_over_neg := 0, N_over := 0 }
  else
    let nn := c1.N_over_neg + (ys.filter (fun y => overNeg fmt q sc y)).length
    let np := c1.N_over_pos + (ys.filter (fun y => overPos fmt q sc y)).length
    { c1 with N_over_neg := nn, N_over_pos := np, N_over := nn + np }

/-- Models a call `Fixed.fixp(ys, scaling)` on a numeric array: the numpy
    operations are elementwise, so the result is the elementwise map of the
    scalar value function, with summed overflow counts. -/
def fixpListSt (fmt : QFrmt) (q : QDict) (sc : ScalingMode) (ys : List ℚ)
    (c : Counters) : Except String (List ℚ × Counters) :=
  if quantRaises q.quant then Except.error "deltasigma Toolbox not found"
  else Except.ok (ys.map (fixpVal fmt q sc), fixpCntList fmt q sc ys c)

/-!
String / number-base codec layer. Python strings are `List Char`.
-/

/-- Map a digit value 0..15 to its character '0'-'9', 'A'-'F'; this is the
    positional reading of the `wmap` table in `bin2hex` and of numpy's
    digit rendering. -/
def digitChar (d : ℕ) : Char :=
  if d < 10 then Char.ofNat (48 + d) else Char.ofNat (55 + d)

/-- Value of a single character digit as understood by Python `int(s, base)`
    (accepting both upper and lower case hex letters). -/
def charHexVal (c : Char) : Option ℕ :=
  if '0' ≤ c ∧ c ≤ '9' then Option.some (c.toNat - 48)
  else if 'A' ≤ c ∧ c ≤ 'F' then Option.some (c.toNat - 55)
  else if 'a' ≤ c ∧ c ≤ 'f' then Option.some (c.toNat - 87)
  else Option.none

/-- Digit value in a given base. -/
def digitVal (b : ℕ) (c : Char) : Option ℕ :=
  match charHexVal c with
  | Option.some v => if v < b then Option.some v else Option.none
  | Option.none => Option.none

/-- Models Python `int(s, base)` on an unsigned digit string: fails on the
    empty string or on any character that is not a digit of the base. -/
def intParse (b : ℕ) (s : List Char) : Option ℕ :=
  if s = [] then Option.none
  else s.foldl (fun acc c =>
    match acc, digitVal b c with
    | Option.some a, Option.some d => Option.some (a * b + d)
    | _, _ => Option.none) (Option.some 0)

/-- Total positional value of a digit string (invalid characters count 0);
    agrees with `intParse` on valid strings. -/
def pv (b : ℕ) (s : List Char) : ℕ :=
  s.foldl (fun a c => a * b + (digitVal b c).getD 0) 0

/-- Render a natural number in base `b` (most significant digit first),
    as Python / numpy do; 0 renders as "0". -/
def natToBaseString (b n : ℕ) : List Char :=
  if n = 0 then ['0'] else (Nat.digits b n).reverse.map digitChar

/-- Left-pad a digit string with '0' to a given total width (no-op when the
    string is already at least that long, as in `np.binary_repr`). -/
def padLeftZeros (w : ℕ) (s : List Char) : List Char :=
  List.replicate (w - s.length) '0' ++ s

/-- Models `np.binary_repr(num, width)`: unsigned binary for `num ≥ 0`,
    two's complement `num + 2**width` for negative `num`. -/
def binary_repr (num : ℤ) (width : ℕ) : List Char :=
  if 0 ≤ num then padLeftZeros width (natToBaseString 2 num.toNat)
  else padLeftZeros width (natToBaseString 2 (num + 2 ^ width).toNat)

/-- The `while len % 4 != 0: prepend "0"` loop of `bin2hex` (lines 76-77):
    prepend the number of zeros that makes the length a multiple of 4. -/
def pad4Left (s : List Char) : List Char :=
  List.replicate ((4 - s.length % 4) % 4) '0' ++ s

/-- The `while len % 4 != 0: append "0"` loop of `bin2hex` (lines 93-94). -/
def pad4Right (s : List Char) : List Char :=
  s ++ List.replicate ((4 - s.length % 4) % 4) '0'

/-- Map successive chunks of 4 binary characters through the `wmap` table of
    `bin2hex`; the table is exactly positional binary-to-hex. A ragged tail
    (length not a multiple of 4) is dropped; the callers always pad first. -/
def toNibbles : List Char → List Char
  | a :: b :: c :: d :: rest =>
    digitChar (8 * (digitVal 2 a).getD 0 + 4 * (digitVal 2 b).getD 0 +
      2 * (digitVal 2 c).getD 0 + (digitVal 2 d).getD 0) :: toNibbles rest
  | _ => []

/-- Models `bin2hex(bin_str, WI)` (pyfda_fix_lib.py lines 44-103). -/
def bin2hex (bin_str : List Char) (WI : ℤ) : List Char :=
  let hex_i :=
    if 0 < WI then toNibbles (pad4Left (bin_str.take (WI + 1).toNat))
    else bin_str.take 1
  let WFb : ℤ := (bin_str.length : ℤ) - WI - 1
  let hex_str :=
    if 0 < WFb then
      hex_i ++ '.' :: toNibbles (pad4Right (bin_str.drop (WI + 1).toNat))
    else hex_i
  if hex_str = [] then ['0'] else hex_str

/-- The vectorized helper `insert_binary_point(bin_str, pos)` of
    `float2frmt` (lines 1025-1026). -/
def insertBinaryPoint (s : List Char) (pos : ℤ) : List Char :=
  s.take (pos + 1).toNat ++ '.' :: s.drop (pos + 1).toNat

/-- Models `np.int64` conversion of a float: truncation towards zero. -/
def i64trunc (y : ℚ) : ℤ := if 0 ≤ y then ⌊y⌋ else ⌈y⌉

/-- Decimal string of an integer. -/
def intToDecString (k : ℤ) : List Char :=
  if k < 0 then '-' :: natToBaseString 10 (-k).toNat
  else natToBaseString 10 k.toNat

/-- Models `str()` of a float that lies on the binary grid with `WF`
    fractional bits: the exact decimal expansion with `WF` decimal places.
    (Python's repr prints the shortest decimal that parses back to the same
    float; for the round-trip through `float()` both renderings denote the
    same value, which is all the codec law depends on.) -/
def ratToDecString (v : ℚ) (WF : ℕ) : List Char :=
  let m := |v|
  let ip := (⌊m⌋).toNat
  let fnum := (⌊(m - (⌊m⌋ : ℚ)) * 10 ^ WF⌋).toNat
  let ds := natToBaseString 10 ip ++ '.' :: padLeftZeros WF (natToBaseString 10 fnum)
  if v < 0 then '-' :: ds else ds

/-- The character whitelist `FRMT_REGEX` of `frmt2float_scalar`
    (lines 474-479); note that `|` is a literal inside the character
    classes and is therefore also legal. -/
def legalChar (base : FxBase) (c : Char) : Bool :=
  match base with
  | FxBase.bin => c = '0' || c = '1' || c = '|' || c = '.' || c = ',' || c = '-'
  | FxBase.csd => c = '0' || c = '+' || c = '-' || c = '|' || c = '.' || c = ','
  | FxBase.dec =>
    (decide ('0' ≤ c) && decide (c ≤ '9')) || c = 'E' || c = 'e' || c = '|' ||
    c = '.' || c = ',' || c = '-'
  | FxBase.hex =>
    (decide ('0' ≤ c) && decide (c ≤ '9')) ||
    (decide ('A' ≤ c) && decide (c ≤ 'F')) ||
    (decide ('a' ≤ c) && decide (c ≤ 'f')) || c = '|' || c = '.' || c = ',' ||
    c = '-'

/-- Number of fractional places of `val_str` (lines 890-895): Python splits
    on '.' and unpacks into exactly two parts; any other number of parts
    raises `ValueError`, caught as "no fractional part". Equivalently: if
    the string contains exactly one '.', the length of the suffix after it,
    else 0. -/
def frcPlaces (s : List Char) : ℕ :=
  if s.count '.' = 1 then (s.reverse.takeWhile (fun c => c ≠ '.')).length else 0

/-- The common string preprocessing of `frmt2float_scalar` (lines 882-897):
    strip illegal characters, strip leading '0's (empty result returns 0.0,
    modelled `none`), replace ',' by '.', prepend '0' to a leading '.',
    count fractional places and join the parts without the radix point. -/
def frmtPreprocess (base : FxBase) (y : List Char) :
    Option (List Char × ℕ × List Char) :=
  let val_str0 := (y.filter (legalChar base)).dropWhile (fun c => c = '0')
  if val_str0.length = 0 then Option.none
  else
    let val_str1 := val_str0.map (fun c => if c = ',' then '.' else c)
    let val_str := if val_str1.head? = Option.some '.' then '0' :: val_str1
      else val_str1
    Option.some (val_str, frcPlaces val_str, val_str.filter (fun c => c ≠ '.'))

/-- Core of Python `float(s)` for an unsigned literal made of decimal digits
    with at most one '.'; fails (`None`) otherwise. -/
def parsePyFloatCore (s : List Char) : Option ℚ :=
  let ipart := s.takeWhile (fun c => c ≠ '.')
  let rest := s.dropWhile (fun c => c ≠ '.')
  match rest with
  | [] => (intParse 10 ipart).map (fun n => (n : ℚ))
  | _ :: fpart =>
    if fpart.contains '.' then Option.none
    else if ipart = [] ∧ fpart = [] then Option.none
    else
      match (if ipart = [] then Option.some 0 else intParse 10 ipart),
            (if fpart = [] then Option.some 0 else intParse 10 fpart) with
      | Option.some i, Option.some f =>
        Option.some ((i : ℚ) + (f : ℚ) / 10 ^ fpart.length)
      | _, _ => Option.none

/-- Models Python `float(s)` on the strings this codec produces
    (optional sign, digits, optional radix point). -/
def parsePyFloat (s : List Char) : Option ℚ :=
  match s with
  | [] => parsePyFloatCore []
  | c :: t =>
    if c = '-' then (parsePyFloatCore t).map Neg.neg
    else if c = '+' then parsePyFloatCore t
    else parsePyFloatCore (c :: t)

/-- Models `max(int(np.floor(np.log2(y_dec))) + 1, 0)` (line 942). -/
def intBitsOf (y_dec : ℚ) : ℤ := max (Int.log 2 y_dec + 1) 0

/-- The two's-complement adjustment of the 'bin'/'hex' parse branch
    (lines 959-963): values whose bit count equals the configured width are
    reinterpreted as negative via `y_dec - (1 << int_bits)`. -/
def binhexTailAdjust (W int_bits : ℤ) (y_dec : ℚ) : ℚ :=
  if int_bits ≤ W - 1 then y_dec
  else if int_bits = W then y_dec - (2 : ℚ) ^ int_bits.toNat
  else y_dec

/-- Final step of the 'bin'/'hex' parse branch (lines 959-967): adjust for
    two's complement, reapply the sign, and requantize with
    `fixp(…, scaling='div')`. An exception inside `fixp` (quant 'dsm') is
    caught by the surrounding `try` and yields 0.0. -/
def binhexFinish (fmt : QFrmt) (q : QDict) (W int_bits : ℤ) (y_dec : ℚ)
    (neg_sign : Bool) : ℚ :=
  let y1 := binhexTailAdjust W int_bits y_dec
  let y2 := if neg_sign then -y1 else y1
  if quantRaises q.quant then 0 else fixpVal fmt q ScalingMode.div y2

/-- The 'bin'/'hex' branch of `frmt2float_scalar` (lines 914-970), after the
    common preprocessing: `raw0` is the digit string without radix point and
    `frc` the number of fractional digit places. All exceptions inside the
    branch are caught and produce 0.0. -/
def frmt2floatBinHex (fmt : QFrmt) (q : QDict) (base : ℕ) (raw0 : List Char)
    (frc : ℕ) : ℚ :=
  let W : ℤ := if fmt = QFrmt.qint then q.WI + q.WF + 1 else q.WI + 1
  match raw0 with
  | [] => 0
  | c0 :: _ =>
    let neg_sign := c0 = '-'
    let raw1 := if neg_sign then raw0.dropWhile (fun c => c = '-') else raw0
    match intParse base raw1 with
    | Option.none => 0
    | Option.some v =>
      let y_dec : ℚ := |(v : ℚ) / (base : ℚ) ^ frc|
      if y_dec = 0 then 0
      else
        let int_bits := intBitsOf y_dec
        if W < int_bits then
          let raw2 :=
            if base = 16 then
              match intParse 16 raw1 with
              | Option.some m => natToBaseString 2 m
              | Option.none => raw1
            else raw1
          let raw3 := raw2.drop (int_bits - W).toNat
          match intParse 2 raw3 with
          | Option.none => 0
          | Option.some m2 =>
            let y_dec2 : ℚ := (m2 : ℚ) / (base : ℚ) ^ frc
            if y_dec2 = 0 then 0
            else binhexFinish fmt q W (intBitsOf y_dec2) y_dec2 neg_sign
        else binhexFinish fmt q W int_bits y_dec neg_sign

/-- Models `csd2dec(csd_str)` (lines 234-282): sum `±2^(msb_power - ii)`
    over the '+' and '-' characters, ignoring everything else. -/
def csd2dec (s : List Char) : ℚ :=
  let msb_power := s.length - 1
  s.enum.foldl (fun acc p =>
    let pw : ℚ := (2 : ℚ) ^ (msb_power - p.1)
    if p.2 = '+' then acc + pw
    else if p.2 = '-' then acc - pw
    else acc) 0

/-- One-per-exponent iteration of the `dec2csd` while loop (lines 174-214);
    `fuel` counts the remaining iterations (the loop decrements `k` by one
    per pass and stops below `-WF`). -/
def dec2csdLoop (WF : ℕ) :
    ℕ → ℤ → ℚ → ℚ → Bool → List (List Char) → List (List Char)
  | 0, _, _, _, _, acc => acc
  | fuel + 1, k, dec_val, remainder, prev, acc =>
    if k < -(WF : ℤ) then acc
    else
      let limit := (2 : ℚ) ^ (k + 1) / 3
      let p1 : List (List Char) × ℚ × Bool :=
        if k = -1 then
          if acc = [] then
            if limit < dec_val then (acc ++ [['+', '.']], remainder - 1, true)
            else if dec_val < -limit then (acc ++ [['-', '.']], remainder + 1, true)
            else (acc ++ [['0', '.']], remainder, prev)
          else (acc ++ [['.']], remainder, prev)
        else (acc, remainder, prev)
      let p2 : List (List Char) × ℚ × Bool :=
        if p1.2.2 then (p1.1 ++ [['0']], p1.2.1, false)
        else if limit < p1.2.1 then (p1.1 ++ [['+']], p1.2.1 - (2 : ℚ) ^ k, true)
        else if p1.2.1 < -limit then (p1.1 ++ [['-']], p1.2.1 + (2 : ℚ) ^ k, true)
        else (p1.1 ++ [['0']], p1.2.1, false)
      dec2csdLoop WF fuel (k - 1) dec_val p2.2.1 p2.2.2 p2.1

/-- Models `dec2csd(dec_val, WF)` (lines 135-227). -/
def dec2csd (dec_val : ℚ) (WF : ℕ) : List Char :=
  if dec_val = 0 then ['0']
  else
    let k : ℤ := if |dec_val| < 1 then 0 else Int.clog 2 (|dec_val| * (3 / 2))
    ((dec2csdLoop WF (k + WF).toNat (k - 1) dec_val dec_val false []).flatten)

/-- Models `Fixed.float2frmt(y)` (lines 991-1082) for the fixpoint formats
    'qfrac' and 'qint'; numeric outputs (decimal branch) are modelled by
    their `str()` rendering, since the round-trip feeds them back through
    `float()`. -/
def float2frmt (fmt : QFrmt) (base : FxBase) (q : QDict) (y : ℚ) :
    Except String (List Char) :=
  if quantRaises q.quant then Except.error "deltasigma Toolbox not found"
  else
    let y_fix := fixpVal fmt q ScalingMode.mult y
    match base with
    | FxBase.dec =>
      if q.WF = 0 ∨ fmt = QFrmt.qint then
        Except.ok (intToDecString (i64trunc y_fix))
      else Except.ok (ratToDecString y_fix q.WF.toNat)
    | FxBase.csd =>
      if fmt = QFrmt.qint then Except.ok (dec2csd y_fix 0)
      else Except.ok (dec2csd y_fix q.WF.toNat)
    | FxBase.bin =>
      let y_fix_int := npRoundInt (y_fix / LSBof fmt q)
      let y_bin := binary_repr y_fix_int (q.WI + q.WF + 1).toNat
      let WIp : ℤ := if fmt = QFrmt.qint then q.WI + q.WF + 1 else q.WI
      if fmt = QFrmt.qint then Except.ok y_bin
      else Except.ok (insertBinaryPoint y_bin WIp)
    | FxBase.hex =>
      let y_fix_int := npRoundInt (y_fix / LSBof fmt q)
      let y_bin := binary_repr y_fix_int (q.WI + q.WF + 1).toNat
      let WIp : ℤ := if fmt = QFrmt.qint then q.WI + q.WF + 1 else q.WI
      Except.ok (bin2hex y_bin WIp)

/-- Models `Fixed.frmt2float_scalar(y)` (lines 872-988). The 'dec', 'bin'
    and 'hex' branches catch all internal exceptions (returning 0.0); the
    'csd' branch calls `fixp` outside any `try`, so a 'dsm' exception
    propagates. -/
def frmt2float_scalar (fmt : QFrmt) (base : FxBase) (q : QDict)
    (y : List Char) : Except String ℚ :=
  match frmtPreprocess base y with
  | Option.none => Except.ok 0
  | Option.some (val_str, frc, raw) =>
    match base with
    | FxBase.dec =>
      Except.ok (if quantRaises q.quant then 0
        else fixpVal fmt q ScalingMode.div ((parsePyFloat val_str).getD 0))
    | FxBase.bin => Except.ok (frmt2floatBinHex fmt q 2 raw frc)
    | FxBase.hex => Except.ok (frmt2floatBinHex fmt q 16 raw frc)
    | FxBase.csd =>
      if quantRaises q.quant then Except.error "deltasigma Toolbox not found"
      else Except.ok (fixpVal fmt q ScalingMode.div (csd2dec raw / (2 : ℚ) ^ frc))

/-- Render a value with `float2frmt` and parse the text back with
    `frmt2float_scalar` (the codec round trip of the specification). -/
def roundtrip (fmt : QFrmt) (base : FxBase) (q : QDict) (y : ℚ) :
    Except String ℚ :=
  match float2frmt fmt base q y with
  | Except.error e => Except.error e
  | Except.ok s => frmt2float_scalar fmt base q s

/-!
IIR direct-form-1 fixpoint filter
(`pyfda/fixpoint_widgets/iir_df1/iir_df1_pyfixp.py`).
-/

/-- Models `int(np.ceil(np.log2(n)))` for `n ≥ 1` (the word growth `DW`
    computation of `IIR_DF1_pyfixp.init`, line 92). -/
def ceilLog2 (n : ℕ) : ℕ := Nat.clog 2 n

/-- Models `quant_coeffs(coeffs, QObj, recursive)` (pyfda_fix_lib.py lines
    1087-1133): reset the quantizer counters, then quantize the coefficient
    array with `fixp` (default scaling 'mult'); when `recursive`, the first
    coefficient is replaced by exactly 1 and excluded from quantization.
    The temporary switch of `fx_base` to 'dec' does not influence `fixp`. -/
def quant_coeffs (fmt : QFrmt) (q : QDict) (coeffs : List ℚ)
    (recursive : Bool) : Except String (List ℚ × Counters) :=
  match fixpListSt fmt q ScalingMode.mult
      (if recursive then coeffs.tail else coeffs) resetN with
  | Except.error e => Except.error e
  | Except.ok (cq, c) =>
    Except.ok ((if recursive then 1 :: cq else cq), c)

/-- The parameter bundle `p` passed to `IIR_DF1_pyfixp`: quantizer dicts
    for the five roles, plus `QCB_nkeys`, the Python `len(p['QCB'])` — the
    number of keys of the QCB dictionary. After `Fixed(p['QCB'])` has filled
    in the seven default keys (wdg_name, WI, WF, w_a_m, quant, ovfl, N_over)
    this is at least 7; it is unrelated to the number of filter taps. -/
structure FilterParams where
  QCB : QDict
  QCB_nkeys : ℕ
  QCA : QDict
  QACC : QDict
  QI : QDict
  QO : QDict
deriving Repr

/-- The state of an `IIR_DF1_pyfixp` instance after `init`: the sanitized
    quantizer dicts, their counter states, quantized coefficients, filter
    length `L` and the two register files. -/
structure IIRState where
  q_b : QDict
  q_a : QDict
  q_mul : QDict
  q_acc : QDict
  q_O : QDict
  c_b : Counters
  c_a : Counters
  c_mul : Counters
  c_acc : Counters
  c_O : Counters
  b_q : List ℚ
  a_q : List ℚ
  L : ℕ
  zi_b : List ℚ
  zi_a : List ℚ
deriving Repr

/-- Models `IIR_DF1_pyfixp.init(p)` with `zi_b = zi_a = None`
    (iir_df1_pyfixp.py lines 59-130): compute the partial-product word
    format by word growth `DW = ceil(log2(len(p['QCB'])))` — note: the
    length of the QCB *dictionary*, i.e. its number of keys — update the
    five quantizers (`set_qdict` sanitization), quantize the coefficients
    (resetting the coefficient counters), set `L = max(len(b_q), len(a_q))`
    and reset the remaining counters and both registers. No check relates
    `len(b)` to `len(a)`; mismatched lengths do not raise. -/
def IIR_DF1_init (fmt : QFrmt) (p : FilterParams) (b a : List ℚ) :
    Except String IIRState :=
  let DW : ℤ := (ceilLog2 p.QCB_nkeys : ℤ)
  let q_mul0 : QDict :=
    { p.QACC with WI := p.QI.WI + p.QCB.WI + DW, WF := p.QI.WF + p.QCB.WF }
  let q_b := sanitizeQ p.QCB
  let q_a := sanitizeQ p.QCA
  let q_mul := sanitizeQ q_mul0
  let q_acc := sanitizeQ p.QACC
  let q_O := sanitizeQ p.QO
  match quant_coeffs fmt q_a a true with
  | Except.error e => Except.error e
  | Except.ok (a_q, c_a) =>
    match quant_coeffs fmt q_b b false with
    | Except.error e => Except.error e
    | Except.ok (b_q, c_b) =>
      let L := max b_q.length a_q.length
      Except.ok
        { q_b := q_b, q_a := q_a, q_mul := q_mul, q_acc := q_acc, q_O := q_O,
          c_b := c_b, c_a := c_a,
          c_mul := resetN, c_acc := resetN, c_O := resetN,
          b_q := b_q, a_q := a_q, L := L,
          zi_b := List.replicate (L - 1) 0, zi_a := List.replicate (L - 1) 0 }

/-- The input argument of `fxfilter`: `None`, a scalar, or an array. -/
inductive PyInput
  | none
  | scalar (v : ℚ)
  | arr (xs : List ℚ)

/-- Models Python `len(x)`: raises `TypeError` for `None` and for scalar
    floats (`fxfilter` line 196, `np.zeros(len(x))`). -/
def pyLen : PyInput → Except String ℕ
  | PyInput.none => Except.error "TypeError: object of type NoneType has no len()"
  | PyInput.scalar _ => Except.error "TypeError: object of type float has no len()"
  | PyInput.arr xs => Except.ok xs.length

/-- Register seeding of `fxfilter` (lines 177-193): a passed register file
    replaces the stored one, zero-padded at the end when too short and
    truncated when too long; `None` keeps the stored registers. -/
def ziSeed (cur : List ℚ) (arg : Option (List ℚ)) (Lm1 : ℕ) : List ℚ :=
  match arg with
  | Option.none => cur
  | Option.some z =>
    if z.length = Lm1 then z
    else if z.length < Lm1 then z ++ List.replicate (Lm1 - z.length) 0
    else z.take Lm1

/-- Models numpy elementwise multiplication with broadcasting of two 1-d
    arrays: equal lengths multiply elementwise, a length-1 operand
    broadcasts, anything else raises `ValueError`. -/
def pyMulEW (xs ys : List ℚ) : Except String (List ℚ) :=
  if xs.length = ys.length then Except.ok (List.zipWith (fun a b => a * b) xs ys)
  else
    match xs, ys with
    | [x], _ => Except.ok (ys.map (fun b => x * b))
    | _, [y] => Except.ok (xs.map (fun a => a * y))
    | _, _ => Except.error "ValueError: operands could not be broadcast"

/-- Models the assignment pair `zi_a[1:] = zi_a[:-1]; zi_a[0] = o`
    (lines 231-234): shift right by one and insert `o` in front; indexing
    an empty register file raises `IndexError`. -/
def ziaShift (zi_a : List ℚ) (o : ℚ) : Except String (List ℚ) :=
  match zi_a with
  | [] => Except.error "IndexError: index 0 is out of bounds"
  | _ => Except.ok (o :: zi_a.dropLast)

/-- The per-sample loop of `fxfilter` (lines 212-234), iterating `k` from
    `n - rem` to `n - 1` over the concatenated buffer `buf`: quantized
    partial products through `Q_mul`, accumulation through `Q_acc`, and the
    recursive register update through `Q_O`. -/
def fxfilterLoop (fmt : QFrmt) (q_mul q_acc q_O : QDict) (b_q a_q : List ℚ)
    (buf : List ℚ) (n : ℕ) :
    ℕ → List ℚ → Counters → Counters → Counters → List ℚ →
    Except String (List ℚ × List ℚ × Counters × Counters × Counters)
  | 0, zi_a, c_mul, c_acc, c_O, y_q =>
    Except.ok (y_q, zi_a, c_mul, c_acc, c_O)
  | rem + 1, zi_a, c_mul, c_acc, c_O, y_q =>
    let k := n - (rem + 1)
    match pyMulEW ((buf.drop k).take b_q.length) b_q with
    | Except.error e => Except.error e
    | Except.ok xb_in =>
      match fixpListSt fmt q_mul ScalingMode.mult xb_in c_mul with
      | Except.error e => Except.error e
      | Except.ok (xb_q, c_mul1) =>
        match pyMulEW zi_a a_q.tail with
        | Except.error e => Except.error e
        | Except.ok xa_in =>
          match fixpListSt fmt q_mul ScalingMode.mult xa_in c_mul1 with
          | Except.error e => Except.error e
          | Except.ok (xa_q0, c_mul2) =>
            let xa_q := xa_q0 ++ [0]
            match fixpSt fmt q_acc ScalingMode.mult (xb_q.sum - xa_q.sum) c_acc with
            | Except.error e => Except.error e
            | Except.ok (y, c_acc1) =>
              match fixpSt fmt q_O ScalingMode.mult y c_O with
              | Except.error e => Except.error e
              | Except.ok (o, c_O1) =>
                match ziaShift zi_a o with
                | Except.error e => Except.error e
                | Except.ok zi_a1 =>
                  fxfilterLoop fmt q_mul q_acc q_O b_q a_q buf n rem
                    zi_a1 c_mul2 c_acc1 c_O1 (y_q ++ [y])

/-- Models `IIR_DF1_pyfixp.fxfilter(x, zi_b, zi_a)` (lines 146-248):
    seed the registers, evaluate the difference equation sample by sample,
    keep the last `L-1` inputs (`self.zi_b[-(self.L-1):]`, which for
    `L = 1` is the whole buffer since `-0 == 0`), fold the product
    quantizer's `N_over` into the accumulator's `N_over` (without touching
    its pos/neg split), reset the product quantizer's counters, and finally
    requantize the whole output block through the output quantizer. -/
def fxfilter (fmt : QFrmt) (st : IIRState) (x : PyInput)
    (zi_b_arg zi_a_arg : Option (List ℚ)) :
    Except String (List ℚ × List ℚ × List ℚ × IIRState) :=
  let zi_b0 := ziSeed st.zi_b zi_b_arg (st.L - 1)
  let zi_a0 := ziSeed st.zi_a zi_a_arg (st.L - 1)
  match pyLen x with
  | Except.error e => Except.error e
  | Except.ok n =>
    let xs := match x with | PyInput.arr l => l | _ => []
    let buf := zi_b0 ++ xs
    match fxfilterLoop fmt st.q_mul st.q_acc st.q_O st.b_q st.a_q buf n
        n zi_a0 st.c_mul st.c_acc st.c_O [] with
    | Except.error e => Except.error e
    | Except.ok (y_q, zi_a1, c_mul1, c_acc1, c_O1) =>
      let zi_b1 := if st.L - 1 = 0 then buf else buf.drop (buf.length - (st.L - 1))
      let c_acc2 : Counters := { c_acc1 with N_over := c_acc1.N_over + c_mul1.N_over }
      match fixpListSt fmt st.q_O ScalingMode.mult (y_q.take n) c_O1 with
      | Except.error e => Except.error e
      | Except.ok (y_out, c_O2) =>
        Except.ok (y_out, zi_b1, zi_a1,
          { st with zi_b := zi_b1, zi_a := zi_a1,
                    c_mul := resetN, c_acc := c_acc2, c_O := c_O2 })

/-!
Helper notions for the proofs: positional digit values, bit strings,
leading-zero stripping.
-/

def pvA (b a : ℕ) (s : List Char) : ℕ :=
  s.foldl (fun x c => x * b + (digitVal b c).getD 0) a

def validDigits (b : ℕ) (s : List Char) : Prop :=
  ∀ c ∈ s, (digitVal b c).isSome

def isBits (s : List Char) : Prop := ∀ c ∈ s, c = '0' ∨ c = '1'

def strip0 (A : List Char) : List Char := A.dropWhile (fun c => c = '0')

def strip0w (A : List Char) : List Char := if strip0 A = [] then ['0'] else strip0 A

/-- A concrete parameter bundle for the filter claims: all five quantizer
    dicts in the `WI=0, WF=2, round, sat` format, with the seven default
    dictionary keys of `Fixed` (`QCB_nkeys = 7`). -/
def p6 : FilterParams :=
  { QCB := ⟨0, 2, QuantMode.round, OvflMode.sat⟩, QCB_nkeys := 7,
    QCA := ⟨0, 2, QuantMode.round, OvflMode.sat⟩,
    QACC := ⟨0, 2, QuantMode.round, OvflMode.sat⟩,
    QI := ⟨0, 2, QuantMode.round, OvflMode.sat⟩,
    QO := ⟨0, 2, QuantMode.round, OvflMode.sat⟩ }

/-!
Lemma layer: digit strings, parsing, padding, preprocessing.
-/

theorem pv_eq_pvA (b : ℕ) (s : List Char) : pv b s = pvA b 0 s := rfl

theorem pvA_cons (b a : ℕ) (c : Char) (t : List Char) :
    pvA b a (c :: t) = pvA b (a * b + (digitVal b c).getD 0) t := rfl

theorem pvA_eq (b : ℕ) (s : List Char) :
    ∀ a, pvA b a s = a * b ^ s.length + pvA b 0 s := by
  induction s with
  | nil => intro a; simp [pvA]
  | cons c t ih =>
    intro a
    rw [pvA_cons, pvA_cons, ih, ih ((0 : ℕ) * b + (digitVal b c).getD 0)]
    simp only [List.length_cons, pow_succ]
    ring

theorem pv_cons (b : ℕ) (c : Char) (t : List Char) :
    pv b (c :: t) = (digitVal b c).getD 0 * b ^ t.length + pv b t := by
  rw [pv_eq_pvA, pvA_cons, pvA_eq, ← pv_eq_pvA]
  ring

theorem pv_append (b : ℕ) (s t : List Char) :
    pv b (s ++ t) = pv b s * b ^ t.length + pv b t := by
  induction s with
  | nil => simp [pv]
  | cons c s ih =>
    rw [List.cons_append, pv_cons, ih, pv_cons]
    simp only [List.length_append, pow_add]
    ring

theorem pv_nil (b : ℕ) : pv b [] = 0 := rfl

theorem pv_zero_char (b : ℕ) (hb : 0 < b) (t : List Char) :
    pv b ('0' :: t) = pv b t := by
  rw [pv_cons]
  have : digitVal b '0' = Option.some 0 := by
    simp [digitVal, charHexVal, hb]
  simp [this]

theorem pv_replicate_zeros (b : ℕ) (hb : 0 < b) (m : ℕ) (t : List Char) :
    pv b (List.replicate m '0' ++ t) = pv b t := by
  induction m with
  | zero => simp
  | succ m ih => rw [List.replicate_succ, List.cons_append, pv_zero_char b hb]; exact ih

theorem pv_padLeftZeros (b : ℕ) (hb : 0 < b) (w : ℕ) (s : List Char) :
    pv b (padLeftZeros w s) = pv b s := pv_replicate_zeros b hb _ s

theorem pv_dropWhile_zeros (b : ℕ) (hb : 0 < b) (s : List Char) :
    pv b (s.dropWhile (fun c => c = '0')) = pv b s := by
  induction s with
  | nil => rfl
  | cons c t ih =>
    by_cases hc : c = '0'
    · subst hc; rw [List.dropWhile_cons_of_pos (by simp), ih, pv_zero_char b hb]
    · rw [List.dropWhile_cons_of_neg (by simp [hc])]

theorem pv_all_zeros (b : ℕ) (hb : 0 < b) (s : List Char)
    (h : ∀ c ∈ s, c = '0') : pv b s = 0 := by
  induction s with
  | nil => rfl
  | cons c t ih =>
    have hc := h c (List.mem_cons_self c t)
    subst hc
    rw [pv_zero_char b hb]
    exact ih fun x hx => h x (List.mem_cons_of_mem _ hx)

theorem charHexVal_digitChar (d : ℕ) (hd : d < 16) :
    charHexVal (digitChar d) = Option.some d := by
  interval_cases d <;> decide

theorem digitVal_digitChar (b d : ℕ) (hb : b ≤ 16) (hd : d < b) :
    digitVal b (digitChar d) = Option.some d := by
  rw [digitVal, charHexVal_digitChar d (lt_of_lt_of_le hd hb)]
  simp [hd]

theorem intParse_eq_pv_aux (b : ℕ) (s : List Char) (hv : validDigits b s) :
    ∀ a : ℕ, s.foldl (fun acc c =>
      match acc, digitVal b c with
      | Option.some a, Option.some d => Option.some (a * b + d)
      | _, _ => Option.none) (Option.some a) = Option.some (pvA b a s) := by
  induction s with
  | nil => intro a; rfl
  | cons c t ih =>
    intro a
    have hc : (digitVal b c).isSome := hv c (List.mem_cons_self c t)
    obtain ⟨d, hd⟩ := Option.isSome_iff_exists.mp hc
    rw [List.foldl_cons, pvA_cons]
    have : (match Option.some a, digitVal b c with
      | Option.some a, Option.some d => Option.some (a * b + d)
      | _, _ => Option.none) = Option.some (a * b + (digitVal b c).getD 0) := by
      rw [hd]; rfl
    rw [this]
    exact ih (fun x hx => hv x (List.mem_cons_of_mem _ hx)) _

theorem intParse_eq_pv (b : ℕ) (s : List Char) (hne : s ≠ [])
    (hv : validDigits b s) : intParse b s = Option.some (pv b s) := by
  rw [intParse, if_neg hne, pv_eq_pvA]
  exact intParse_eq_pv_aux b s hv 0

theorem foldl_reverse_ofDigits (b : ℕ) (L : List ℕ) :
    L.reverse.foldl (fun a d => a * b + d) 0 = Nat.ofDigits b L := by
  induction L with
  | nil => simp [Nat.ofDigits]
  | cons d L ih =>
    rw [List.reverse_cons, List.foldl_append, ih, Nat.ofDigits_cons]
    simp [Nat.mul_comm]
    omega

theorem pv_map_digitChar (b : ℕ) (hb : b ≤ 16) (ds : List ℕ)
    (hd : ∀ d ∈ ds, d < b) :
    pv b (ds.map digitChar) = ds.foldl (fun a d => a * b + d) 0 := by
  have : ∀ a : ℕ, pvA b a (ds.map digitChar) = ds.foldl (fun x d => x * b + d) a := by
    induction ds with
    | nil => intro a; rfl
    | cons d t ih =>
      intro a
      rw [List.map_cons, pvA_cons, List.foldl_cons,
        digitVal_digitChar b d hb (hd d (List.mem_cons_self d t))]
      exact ih (fun x hx => hd x (List.mem_cons_of_mem _ hx)) _
  rw [pv_eq_pvA]
  exact this 0

theorem pv_natToBaseString (b n : ℕ) (hb1 : 1 < b) (hb : b ≤ 16) :
    pv b (natToBaseString b n) = n := by
  by_cases hn : n = 0
  · subst hn
    rw [natToBaseString, if_pos rfl, pv_zero_char b (by omega), pv_nil]
  · rw [natToBaseString, if_neg hn,
      pv_map_digitChar b hb _ (fun d hd => Nat.digits_lt_base hb1 (by
        simpa using hd)),
      foldl_reverse_ofDigits, Nat.ofDigits_digits]

theorem natToBaseString_ne_nil (b n : ℕ) : natToBaseString b n ≠ [] := by
  rw [natToBaseString]
  by_cases hn : n = 0
  · simp [hn]
  · simp only [if_neg hn, ne_eq, List.map_eq_nil_iff, List.reverse_eq_nil_iff]
    exact Nat.digits_ne_nil_iff_ne_zero.mpr hn

theorem natToBaseString_length (b n : ℕ) (hb1 : 1 < b) (hn : n ≠ 0) :
    (natToBaseString b n).length = Nat.log b n + 1 := by
  rw [natToBaseString, if_neg hn]
  simp [Nat.digits_len b n hb1 hn]

theorem natToBaseString_valid (b n : ℕ) (hb1 : 1 < b) (hb : b ≤ 16) :
    validDigits b (natToBaseString b n) := by
  intro c hc
  rw [natToBaseString] at hc
  by_cases hn : n = 0
  · rw [if_pos hn] at hc
    simp at hc
    subst hc
    have hb0 : 0 < b := by omega
    simp [digitVal, charHexVal, hb0]
  · rw [if_neg hn] at hc
    simp only [List.mem_map, List.mem_reverse] at hc
    obtain ⟨d, hd, rfl⟩ := hc
    rw [digitVal_digitChar b d hb (Nat.digits_lt_base hb1 hd)]
    rfl

theorem digitChar_ne_zero_char (d : ℕ) (hd : d < 16) (hne : d ≠ 0) :
    digitChar d ≠ '0' := by
  interval_cases d <;> simp_all <;> decide

theorem natToBaseString_head_ne_zero (b n : ℕ) (hb1 : 1 < b) (hb : b ≤ 16)
    (hn : n ≠ 0) : ∀ c, (natToBaseString b n).head? = Option.some c → c ≠ '0' := by
  intro c hc
  rw [natToBaseString, if_neg hn, List.head?_map, List.head?_reverse] at hc
  obtain ⟨d, hd, rfl⟩ : ∃ d, (Nat.digits b n).getLast? = Option.some d ∧ digitChar d = c := by
    cases hl : (Nat.digits b n).getLast? with
    | none => rw [hl] at hc; simp at hc
    | some d => rw [hl] at hc; simp at hc; exact ⟨d, rfl, hc⟩
  have hne : d ≠ 0 := by
    have h1 : Nat.digits b n ≠ [] := Nat.digits_ne_nil_iff_ne_zero.mpr hn
    have h2 := Nat.getLast_digit_ne_zero b hn
    have h3 : (Nat.digits b n).getLast h1 = d := by
      rwa [List.getLast_eq_iff_getLast?_eq_some]
    rwa [h3] at h2
  have hmem : d ∈ Nat.digits b n := List.mem_of_mem_getLast? (by rw [hd]; rfl)
  have hlt : d < b := Nat.digits_lt_base hb1 hmem
  exact digitChar_ne_zero_char d (lt_of_lt_of_le hlt hb) hne

theorem isBits_append (s t : List Char) (hs : isBits s) (ht : isBits t) :
    isBits (s ++ t) := by
  intro c hc
  rcases List.mem_append.mp hc with h | h
  · exact hs c h
  · exact ht c h

theorem isBits_replicate_zeros (m : ℕ) : isBits (List.replicate m '0') := by
  intro c hc
  left
  exact List.eq_of_mem_replicate hc

theorem natToBaseString_two_bits (n : ℕ) : isBits (natToBaseString 2 n) := by
  intro c hc
  rw [natToBaseString] at hc
  by_cases hn : n = 0
  · rw [if_pos hn] at hc; simp at hc; left; exact hc
  · rw [if_neg hn] at hc
    simp only [List.mem_map, List.mem_reverse] at hc
    obtain ⟨d, hd, rfl⟩ := hc
    have : d < 2 := Nat.digits_lt_base (by norm_num) hd
    interval_cases d
    · left; decide
    · right; decide

theorem isBits_padLeftZeros (w : ℕ) (s : List Char) (hs : isBits s) :
    isBits (padLeftZeros w s) :=
  isBits_append _ _ (isBits_replicate_zeros _) hs

theorem padLeftZeros_length (w : ℕ) (s : List Char) :
    (padLeftZeros w s).length = max w s.length := by
  simp [padLeftZeros]
  omega

theorem bits_valid (b : ℕ) (hb : 2 ≤ b) (s : List Char) (hs : isBits s) :
    validDigits b s := by
  intro c hc
  rcases hs c hc with rfl | rfl
  · simp [digitVal, charHexVal]; omega
  · simp [digitVal, charHexVal]; omega

theorem bits_dv (b : ℕ) (hb : 2 ≤ b) (c : Char) (hc : c = '0' ∨ c = '1') :
    (digitVal b c).getD 0 = (digitVal 2 c).getD 0 := by
  have hb0 : (0 : ℕ) < b := by omega
  have hb1 : (1 : ℕ) < b := by omega
  rcases hc with rfl | rfl
  · simp [digitVal, charHexVal, hb0]
  · simp [digitVal, charHexVal, hb1]

theorem bit_dv_lt (c : Char) (hc : c = '0' ∨ c = '1') :
    (digitVal 2 c).getD 0 < 2 := by
  rcases hc with rfl | rfl <;> decide

theorem toNibbles_length :
    ∀ s : List Char, s.length % 4 = 0 → (toNibbles s).length = s.length / 4
  | [], _ => rfl
  | [_], h => by simp at h
  | [_, _], h => by simp at h
  | [_, _, _], h => by simp at h
  | a :: b :: c :: d :: rest, h => by
    have h4 : rest.length % 4 = 0 := by
      simp only [List.length_cons] at h; omega
    show (toNibbles rest).length + 1 = _
    rw [toNibbles_length rest h4]
    simp only [List.length_cons]
    omega

theorem digitVal_getD_lt (b : ℕ) (hb : 0 < b) (c : Char) :
    (digitVal b c).getD 0 < b := by
  rw [digitVal]
  cases charHexVal c with
  | none => simp [hb]
  | some v =>
    by_cases hv : v < b
    · simp only [if_pos hv, Option.getD_some]; exact hv
    · simp only [if_neg hv, Option.getD_none]; exact hb

theorem toNibbles_chars :
    ∀ s : List Char, ∀ c ∈ toNibbles s, ∃ v, v < 16 ∧ c = digitChar v
  | [], _, hc => by simp [toNibbles] at hc
  | [_], _, hc => by simp [toNibbles] at hc
  | [_, _], _, hc => by simp [toNibbles] at hc
  | [_, _, _], _, hc => by simp [toNibbles] at hc
  | a :: b :: c :: d :: rest, x, hc => by
    rw [show toNibbles (a :: b :: c :: d :: rest) =
      digitChar (8 * (digitVal 2 a).getD 0 + 4 * (digitVal 2 b).getD 0 +
        2 * (digitVal 2 c).getD 0 + (digitVal 2 d).getD 0) :: toNibbles rest from rfl,
      List.mem_cons] at hc
    rcases hc with rfl | hc
    · refine ⟨_, ?_, rfl⟩
      have ha := digitVal_getD_lt 2 (by norm_num) a
      have hb := digitVal_getD_lt 2 (by norm_num) b
      have hcv := digitVal_getD_lt 2 (by norm_num) c
      have hd := digitVal_getD_lt 2 (by norm_num) d
      omega
    · exact toNibbles_chars rest x hc

theorem pv_four (b : ℕ) (a c d e : Char) :
    pv b [a, c, d, e] = ((digitVal b a).getD 0 * b + (digitVal b c).getD 0) * b * b +
      (digitVal b d).getD 0 * b + (digitVal b e).getD 0 := by
  simp [pv_cons, pv_nil]
  ring

theorem toNibbles_pv :
    ∀ s : List Char, s.length % 4 = 0 → isBits s → pv 16 (toNibbles s) = pv 2 s
  | [], _, _ => rfl
  | [_], h, _ => by simp at h
  | [_, _], h, _ => by simp at h
  | [_, _, _], h, _ => by simp at h
  | a :: b :: c :: d :: rest, h, hbits => by
    have h4 : rest.length % 4 = 0 := by
      simp only [List.length_cons] at h; omega
    have hrest : isBits rest := fun x hx => hbits x (by simp [hx])
    have ha := hbits a (by simp)
    have hb := hbits b (by simp)
    have hc := hbits c (by simp)
    have hd := hbits d (by simp)
    have hv : 8 * (digitVal 2 a).getD 0 + 4 * (digitVal 2 b).getD 0 +
        2 * (digitVal 2 c).getD 0 + (digitVal 2 d).getD 0 < 16 := by
      have h1 := bit_dv_lt a ha
      have h2 := bit_dv_lt b hb
      have h3 := bit_dv_lt c hc
      have h4 := bit_dv_lt d hd
      omega
    rw [show toNibbles (a :: b :: c :: d :: rest) =
      digitChar (8 * (digitVal 2 a).getD 0 + 4 * (digitVal 2 b).getD 0 +
        2 * (digitVal 2 c).getD 0 + (digitVal 2 d).getD 0) :: toNibbles rest from rfl,
      pv_cons, digitVal_digitChar 16 _ (le_refl 16) hv,
      show (a :: b :: c :: d :: rest) = [a, b, c, d] ++ rest from rfl,
      pv_append, pv_four, toNibbles_pv rest h4 hrest,
      toNibbles_length rest h4]
    have hlen : 16 ^ (rest.length / 4) = 2 ^ rest.length := by
      have : rest.length = 4 * (rest.length / 4) := by omega
      rw [show (16 : ℕ) = 2 ^ 4 from rfl, ← pow_mul]
      congr 1
      omega
    rw [hlen]
    simp
    ring

theorem pad4Left_mod (s : List Char) : (pad4Left s).length % 4 = 0 := by
  simp [pad4Left]
  omega

theorem pad4Right_mod (s : List Char) : (pad4Right s).length % 4 = 0 := by
  simp [pad4Right]
  omega

theorem pad4Left_pv (b : ℕ) (hb : 0 < b) (s : List Char) :
    pv b (pad4Left s) = pv b s := pv_replicate_zeros b hb _ s

theorem pad4Right_pv (b : ℕ) (hb : 0 < b) (s : List Char) :
    pv b (pad4Right s) = pv b s * b ^ ((4 - s.length % 4) % 4) := by
  rw [pad4Right, pv_append]
  rw [pv_all_zeros b hb _ (fun c hc => List.eq_of_mem_replicate hc)]
  simp

theorem binary_repr_eq_mod (k : ℤ) (W : ℕ) (hlo : -(2 ^ W) ≤ k) (hhi : k < 2 ^ W) :
    binary_repr k W = padLeftZeros W (natToBaseString 2 (k % (2 : ℤ) ^ W).toNat) := by
  rw [binary_repr]
  by_cases h : 0 ≤ k
  · rw [if_pos h, Int.emod_eq_of_lt h hhi]
  · rw [if_neg h]
    have hW : (0 : ℤ) < 2 ^ W := by positivity
    have h1 : (k + 2 ^ W * 1) % (2 ^ W) = k % 2 ^ W :=
      Int.add_mul_emod_self_left k (2 ^ W) 1
    have h2 : (k + 2 ^ W) % 2 ^ W = k + 2 ^ W :=
      Int.emod_eq_of_lt (by linarith) (by linarith)
    have h3 : k % (2 : ℤ) ^ W = k + 2 ^ W := by
      calc k % (2 : ℤ) ^ W = (k + 2 ^ W * 1) % 2 ^ W := h1.symm
        _ = (k + 2 ^ W) % 2 ^ W := by ring_nf
        _ = k + 2 ^ W := h2
    rw [h3]

theorem emod_toNat_lt (k : ℤ) (W : ℕ) : (k % (2 : ℤ) ^ W).toNat < 2 ^ W := by
  have hW : (0 : ℤ) < 2 ^ W := by positivity
  have h1 : k % (2 : ℤ) ^ W < 2 ^ W := Int.emod_lt_of_pos k hW
  have h2 : 0 ≤ k % (2 : ℤ) ^ W := Int.emod_nonneg k (by positivity)
  have hcast : ((2 ^ W : ℕ) : ℤ) = (2 : ℤ) ^ W := by push_cast; ring
  omega

theorem natToBaseString_two_length_le (n W : ℕ) (hW : 1 ≤ W) (hn : n < 2 ^ W) :
    (natToBaseString 2 n).length ≤ W := by
  by_cases h0 : n = 0
  · subst h0; simp [natToBaseString]; omega
  · rw [natToBaseString_length 2 n (by norm_num) h0]
    have := Nat.log_lt_of_lt_pow h0 hn
    omega

theorem binary_repr_length (k : ℤ) (W : ℕ) (hW : 1 ≤ W) (hlo : -(2 ^ W) ≤ k)
    (hhi : k < 2 ^ W) : (binary_repr k W).length = W := by
  rw [binary_repr_eq_mod k W hlo hhi, padLeftZeros_length]
  have := natToBaseString_two_length_le (k % (2 : ℤ) ^ W).toNat W hW (emod_toNat_lt k W)
  omega

theorem binary_repr_pv (k : ℤ) (W : ℕ) (hlo : -(2 ^ W) ≤ k) (hhi : k < 2 ^ W) :
    pv 2 (binary_repr k W) = (k % (2 : ℤ) ^ W).toNat := by
  rw [binary_repr_eq_mod k W hlo hhi, pv_padLeftZeros 2 (by norm_num),
    pv_natToBaseString 2 _ (by norm_num) (by norm_num)]

theorem binary_repr_bits (k : ℤ) (W : ℕ) : isBits (binary_repr k W) := by
  rw [binary_repr]
  by_cases h : 0 ≤ k
  · rw [if_pos h]; exact isBits_padLeftZeros _ _ (natToBaseString_two_bits _)
  · rw [if_neg h]; exact isBits_padLeftZeros _ _ (natToBaseString_two_bits _)

theorem takeWhile_append_stop (p : Char → Bool) (A : List Char) (c : Char)
    (t : List Char) (hA : ∀ x ∈ A, p x = true) (hc : p c = false) :
    (A ++ c :: t).takeWhile p = A := by
  induction A with
  | nil => simp [List.takeWhile_cons, hc]
  | cons a A ih =>
    rw [List.cons_append, List.takeWhile_cons, hA a (List.mem_cons_self a A)]
    rw [ih (fun x hx => hA x (List.mem_cons_of_mem _ hx))]
    simp

theorem frcPlaces_parts (A B : List Char) (hA : '.' ∉ A) (hB : '.' ∉ B) :
    frcPlaces (A ++ '.' :: B) = B.length := by
  rw [frcPlaces, if_pos, List.reverse_append, List.reverse_cons]
  · rw [List.append_assoc, List.singleton_append, takeWhile_append_stop _ _ '.' _
      (fun x hx => by simp; intro h; subst h; exact hB (List.mem_reverse.mp hx)) (by simp)]
    exact List.length_reverse B
  · rw [List.count_append, List.count_cons]
    rw [List.count_eq_zero_of_not_mem hA, List.count_eq_zero_of_not_mem hB]
    simp

theorem frcPlaces_nodot (A : List Char) (hA : '.' ∉ A) : frcPlaces A = 0 := by
  rw [frcPlaces, if_neg]
  rw [List.count_eq_zero_of_not_mem hA]
  simp

theorem mem_of_mem_strip0 (A : List Char) (x : Char) (hx : x ∈ strip0 A) : x ∈ A :=
  (List.dropWhile_sublist _).subset hx

theorem pv_strip0 (b : ℕ) (hb : 0 < b) (A : List Char) : pv b (strip0 A) = pv b A :=
  pv_dropWhile_zeros b hb A

theorem pv_strip0w (b : ℕ) (hb : 0 < b) (A : List Char) : pv b (strip0w A) = pv b A := by
  rw [strip0w]
  by_cases h : strip0 A = []
  · rw [if_pos h, pv_zero_char b hb, pv_nil, ← pv_strip0 b hb, h, pv_nil]
  · rw [if_neg h]; exact pv_strip0 b hb A

theorem map_comma_id (s : List Char) (h : ',' ∉ s) :
    s.map (fun c => if c = ',' then '.' else c) = s := by
  induction s with
  | nil => rfl
  | cons c t ih =>
    have hc : c ≠ ',' := fun he => h (he ▸ List.mem_cons_self c t)
    rw [List.map_cons, if_neg hc, ih (fun ht => h (List.mem_cons_of_mem _ ht))]

theorem filter_eq_self_of (p : Char → Bool) (s : List Char)
    (h : ∀ c ∈ s, p c = true) : s.filter p = s :=
  List.filter_eq_self.mpr h

theorem filter_ne_dot_id (s : List Char) (h : '.' ∉ s) :
    s.filter (fun c => c ≠ '.') = s := by
  apply filter_eq_self_of
  intro c hc
  simp
  exact fun he => h (he ▸ hc)

theorem strip0_cons_stop (c : Char) (t : List Char) (hc : c ≠ '0') :
    strip0 (c :: t) = c :: t := by
  rw [strip0, List.dropWhile_cons_of_neg (by simp [hc])]

theorem frmtPreprocess_dot (base : FxBase) (A B : List Char)
    (hAleg : ∀ c ∈ A, legalChar base c = true)
    (hBleg : ∀ c ∈ B, legalChar base c = true)
    (hdot : legalChar base '.' = true)
    (hAdot : '.' ∉ A) (hBdot : '.' ∉ B)
    (hAcom : ',' ∉ A) (hBcom : ',' ∉ B) :
    frmtPreprocess base (A ++ '.' :: B) =
      Option.some (strip0w A ++ '.' :: B, B.length, strip0w A ++ B) := by
  have hfilter : (A ++ '.' :: B).filter (legalChar base) = A ++ '.' :: B := by
    apply filter_eq_self_of
    intro c hc
    rcases List.mem_append.mp hc with h | h
    · exact hAleg c h
    · rcases List.mem_cons.mp h with rfl | h
      · exact hdot
      · exact hBleg c h
  have hcomdot : ('.' : Char) ≠ ',' := by decide
  rw [frmtPreprocess, hfilter]
  by_cases hempty : strip0 A = []
  · have hdrop : (A ++ '.' :: B).dropWhile (fun c => c = '0') = '.' :: B := by
      rw [List.dropWhile_append, List.dropWhile_cons_of_neg (by decide)]
      rw [show (A.dropWhile fun c => c = '0') = strip0 A from rfl, hempty]
      rfl
    rw [hdrop]
    have hmap : ('.' :: B).map (fun c => if c = ',' then '.' else c) = '.' :: B := by
      rw [List.map_cons, if_neg hcomdot, map_comma_id B hBcom]
    simp only [List.length_cons, Nat.succ_ne_zero, if_false, hmap,
      List.head?_cons, if_pos rfl, if_true]
    have hfrc : frcPlaces ('0' :: '.' :: B) = B.length := by
      have h := frcPlaces_parts ['0'] B (by decide) hBdot
      simpa using h
    have hraw : ('0' :: '.' :: B).filter (fun c => c ≠ '.') = '0' :: B := by
      rw [List.filter_cons_of_pos (by decide), List.filter_cons_of_neg (by decide),
        filter_ne_dot_id B hBdot]
    rw [strip0w, if_pos hempty, hfrc, hraw]
    rfl
  · have hdrop : (A ++ '.' :: B).dropWhile (fun c => c = '0') =
        strip0 A ++ '.' :: B := by
      rw [List.dropWhile_append, List.dropWhile_cons_of_neg (by decide)]
      rw [show (A.dropWhile fun c => c = '0') = strip0 A from rfl]
      simp [hempty]
    rw [hdrop]
    obtain ⟨x, t, hxt⟩ : ∃ x t, strip0 A = x :: t := by
      cases h : strip0 A with
      | nil => exact absurd h hempty
      | cons x t => exact ⟨x, t, rfl⟩
    have hxA : x ∈ A := mem_of_mem_strip0 A x (by rw [hxt]; exact List.mem_cons_self x t)
    have hxdot : x ≠ '.' := fun he => hAdot (he ▸ hxA)
    have hlen : ¬((strip0 A ++ '.' :: B).length = 0) := by
      simp
    have hmap : (strip0 A ++ '.' :: B).map (fun c => if c = ',' then '.' else c) =
        strip0 A ++ '.' :: B := by
      rw [List.map_append, List.map_cons, if_neg hcomdot,
        map_comma_id _ (fun hm => hAcom (mem_of_mem_strip0 A ',' hm)),
        map_comma_id B hBcom]
    have hhead : ¬((strip0 A ++ '.' :: B).head? = Option.some '.') := by
      rw [hxt, List.cons_append, List.head?_cons]
      intro he
      exact hxdot (by injection he)
    rw [if_neg hlen, hmap]
    dsimp only
    rw [if_neg hhead]
    have hsdot : '.' ∉ strip0 A := fun hm => hAdot (mem_of_mem_strip0 A '.' hm)
    have hfrc : frcPlaces (strip0 A ++ '.' :: B) = B.length :=
      frcPlaces_parts (strip0 A) B hsdot hBdot
    have hraw : (strip0 A ++ '.' :: B).filter (fun c => c ≠ '.') = strip0 A ++ B := by
      rw [List.filter_append, List.filter_cons_of_neg (by decide),
        filter_ne_dot_id _ hsdot, filter_ne_dot_id B hBdot]
    rw [hfrc, hraw, strip0w, if_neg hempty]

theorem frmtPreprocess_nodot (base : FxBase) (A : List Char)
    (hAleg : ∀ c ∈ A, legalChar base c = true)
    (hAdot : '.' ∉ A) (hAcom : ',' ∉ A) :
    frmtPreprocess base A =
      if strip0 A = [] then Option.none
      else Option.some (strip0 A, 0, strip0 A) := by
  have hfilter : A.filter (legalChar base) = A := filter_eq_self_of _ A hAleg
  rw [frmtPreprocess, hfilter]
  rw [show (A.dropWhile fun c => c = '0') = strip0 A from rfl]
  by_cases hempty : strip0 A = []
  · rw [if_pos hempty, if_pos (by rw [hempty]; rfl)]
  · rw [if_neg hempty, if_neg (by simp [hempty])]
    obtain ⟨x, t, hxt⟩ : ∃ x t, strip0 A = x :: t := by
      cases h : strip0 A with
      | nil => exact absurd h hempty
      | cons x t => exact ⟨x, t, rfl⟩
    have hsdot : '.' ∉ strip0 A := fun hm => hAdot (mem_of_mem_strip0 A '.' hm)
    have hscom : ',' ∉ strip0 A := fun hm => hAcom (mem_of_mem_strip0 A ',' hm)
    have hxA : x ∈ A := mem_of_mem_strip0 A x (by rw [hxt]; exact List.mem_cons_self x t)
    have hxdot : x ≠ '.' := fun he => hAdot (he ▸ hxA)
    rw [map_comma_id _ hscom]
    dsimp only
    rw [if_neg (by rw [hxt, List.head?_cons]; intro he; exact hxdot (by injection he))]
    rw [frcPlaces_nodot _ hsdot, filter_ne_dot_id _ hsdot]

theorem frmtPreprocess_neg (base : FxBase) (t : List Char)
    (hleg : ∀ c ∈ '-' :: t, legalChar base c = true)
    (hcom : ',' ∉ '-' :: t) :
    frmtPreprocess base ('-' :: t) =
      Option.some ('-' :: t, frcPlaces ('-' :: t),
        ('-' :: t).filter (fun c => c ≠ '.')) := by
  have hfilter : ('-' :: t).filter (legalChar base) = '-' :: t :=
    filter_eq_self_of _ _ hleg
  rw [frmtPreprocess, hfilter]
  rw [show (('-' :: t).dropWhile fun c => c = '0') = '-' :: t by
    rw [List.dropWhile_cons_of_neg (by decide)]]
  rw [if_neg (by simp)]
  rw [map_comma_id _ hcom]
  dsimp only
  rw [if_neg (by rw [List.head?_cons]; intro he; exact absurd (by injection he) (by decide))]

theorem quantApply_intCast (qm : QuantMode) (k : ℤ) :
    quantApply qm ((k : ℚ)) = (k : ℚ) := by
  have hfloor : (⌊(k : ℚ)⌋ : ℚ) = (k : ℚ) := by rw [Int.floor_intCast]
  have hceil : (⌈(k : ℚ)⌉ : ℚ) = (k : ℚ) := by rw [Int.ceil_intCast]
  have hround : npRound (k : ℚ) = (k : ℚ) := by
    rw [npRound, npRoundInt]
    norm_num
  cases qm <;>
    simp [quantApply, npFloor, npCeil, npTrunc, hfloor, hceil, hround]

theorem fixpQuantized_qfrac_int (q : QDict) (sc : ScalingMode) (k : ℤ) :
    fixpQuantized QFrmt.qfrac q sc ((k : ℚ) / (2 : ℚ) ^ q.WF) =
      (k : ℚ) / (2 : ℚ) ^ q.WF := by
  have h2 : ((2 : ℚ) ^ q.WF) ≠ 0 := zpow_ne_zero _ (by norm_num)
  have hscale : scaleOf QFrmt.qfrac q = 1 := by simp [scaleOf]
  have hy2 : ((k : ℚ) / (2 : ℚ) ^ q.WF) * (2 : ℚ) ^ q.WF = (k : ℚ) := by
    field_simp
  rw [fixpQuantized, hscale]
  by_cases hsc : sc = ScalingMode.mult ∨ sc = ScalingMode.multdiv
  · rw [if_pos hsc]
    rw [mul_one, hy2, quantApply_intCast]
  · rw [if_neg hsc]
    rw [hy2, quantApply_intCast]

theorem MIN_qfrac (q : QDict) : MINof QFrmt.qfrac q = -(2 : ℚ) ^ q.WI := by
  rw [MINof, MSBof, if_neg (by decide)]
  rw [show (2 : ℚ) ^ (q.WI - 1) = (2 : ℚ) ^ q.WI / 2 by
    rw [zpow_sub_one₀ (by norm_num : (2:ℚ) ≠ 0)]; ring]
  ring

theorem MAX_qfrac (q : QDict) :
    MAXof QFrmt.qfrac q = (2 : ℚ) ^ q.WI - (2 : ℚ) ^ (-q.WF) := by
  rw [MAXof, MSBof, LSBof, if_neg (by decide), if_neg (by decide)]
  rw [show (2 : ℚ) ^ (q.WI - 1) = (2 : ℚ) ^ q.WI / 2 by
    rw [zpow_sub_one₀ (by norm_num : (2:ℚ) ≠ 0)]; ring]
  ring

theorem ovflApply_in_range (fmt : QFrmt) (q : QDict) (yq : ℚ)
    (hlo : MINof fmt q ≤ yq) (hhi : yq ≤ MAXof fmt q) :
    ovflApply fmt q yq = yq := by
  rw [ovflApply]
  cases hov : q.ovfl with
  | none => rfl
  | sat =>
    simp only [decide_eq_true_eq]
    rw [if_neg (not_lt.mpr hlo), if_neg (not_lt.mpr hhi)]
  | wrap =>
    simp only [Bool.or_eq_true, decide_eq_true_eq]
    rw [if_neg (by rw [not_or]; exact ⟨not_lt.mpr hhi, not_lt.mpr hlo⟩)]

theorem fixpVal_grid (q : QDict) (sc : ScalingMode) (k : ℤ)
    (hlo : MINof QFrmt.qfrac q ≤ (k : ℚ) / (2 : ℚ) ^ q.WF)
    (hhi : (k : ℚ) / (2 : ℚ) ^ q.WF ≤ MAXof QFrmt.qfrac q) :
    fixpVal QFrmt.qfrac q sc ((k : ℚ) / (2 : ℚ) ^ q.WF) =
      (k : ℚ) / (2 : ℚ) ^ q.WF := by
  have hscale : scaleOf QFrmt.qfrac q = 1 := by simp [scaleOf]
  rw [fixpVal, fixpQuantized_qfrac_int, ovflApply_in_range _ _ _ hlo hhi, hscale]
  by_cases hsc : sc = ScalingMode.div ∨ sc = ScalingMode.multdiv
  · rw [if_pos hsc, div_one]
  · rw [if_neg hsc]

/-- Bounds on the integer `k` of a grid value imply the rational range
    bounds, for non-negative word lengths. -/
theorem grid_bounds (WI WF : ℕ) (q : QDict) (hWI : q.WI = (WI : ℤ))
    (hWF : q.WF = (WF : ℤ)) (k : ℤ)
    (hlo : -(2 ^ (WI + WF) : ℤ) ≤ k) (hhi : k ≤ 2 ^ (WI + WF) - 1) :
    MINof QFrmt.qfrac q ≤ (k : ℚ) / (2 : ℚ) ^ q.WF ∧
      (k : ℚ) / (2 : ℚ) ^ q.WF ≤ MAXof QFrmt.qfrac q := by
  have h2pow : (0 : ℚ) < (2 : ℚ) ^ WF := by positivity
  rw [MIN_qfrac, MAX_qfrac, hWI, hWF, zpow_natCast, zpow_natCast,
    zpow_neg, zpow_natCast]
  have hklo : -(2 : ℚ) ^ (WI + WF) ≤ (k : ℚ) := by
    have h : ((-(2 ^ (WI + WF)) : ℤ) : ℚ) ≤ ((k : ℤ) : ℚ) := Int.cast_le.mpr hlo
    push_cast at h
    linarith
  have hkhi : (k : ℚ) ≤ (2 : ℚ) ^ (WI + WF) - 1 := by
    have h : ((k : ℤ) : ℚ) ≤ ((2 ^ (WI + WF) - 1 : ℤ) : ℚ) := Int.cast_le.mpr hhi
    push_cast at h
    linarith
  constructor
  · rw [le_div_iff₀ h2pow]
    calc -(2 : ℚ) ^ WI * 2 ^ WF = -(2 : ℚ) ^ (WI + WF) := by
          rw [pow_add]; ring
      _ ≤ (k : ℚ) := hklo
  · rw [div_le_iff₀ h2pow]
    calc (k : ℚ) ≤ (2 : ℚ) ^ (WI + WF) - 1 := hkhi
      _ = ((2 : ℚ) ^ WI - ((2 : ℚ) ^ WF)⁻¹) * 2 ^ WF := by
          rw [sub_mul, inv_mul_cancel₀ (ne_of_gt h2pow), pow_add]

theorem intLog2_div (n WF : ℕ) (hn : 1 ≤ n) :
    Int.log 2 ((n : ℚ) / (2 : ℚ) ^ WF) = (Nat.log 2 n : ℤ) - WF := by
  have hq : (0 : ℚ) < (n : ℚ) / (2 : ℚ) ^ WF := by positivity
  have hone : (1 : ℕ) < 2 := by norm_num
  have hcast : ((2 : ℕ) : ℚ) = (2 : ℚ) := by norm_num
  have h2pos : (0 : ℚ) < (2 : ℚ) ^ WF := by positivity
  have hlow : ((2 : ℕ) : ℚ) ^ ((Nat.log 2 n : ℤ) - WF) ≤ (n : ℚ) / (2 : ℚ) ^ WF := by
    have h1 : (2 : ℚ) ^ Nat.log 2 n ≤ (n : ℚ) := by
      exact_mod_cast Nat.pow_log_le_self 2 (by omega)
    rw [hcast, zpow_sub₀ (by norm_num : (2 : ℚ) ≠ 0), zpow_natCast, zpow_natCast]
    gcongr
  have hupp : (n : ℚ) / (2 : ℚ) ^ WF <
      ((2 : ℕ) : ℚ) ^ (((Nat.log 2 n : ℤ) - WF) + 1) := by
    have h1 : (n : ℚ) < (2 : ℚ) ^ (Nat.log 2 n + 1) := by
      exact_mod_cast Nat.lt_pow_succ_log_self hone n
    rw [hcast, show ((Nat.log 2 n : ℤ) - WF) + 1 = ((Nat.log 2 n + 1 : ℕ) : ℤ) - WF by
      push_cast; ring]
    rw [zpow_sub₀ (by norm_num : (2 : ℚ) ≠ 0), zpow_natCast, zpow_natCast]
    gcongr
  have hle : (Nat.log 2 n : ℤ) - WF ≤ Int.log 2 ((n : ℚ) / (2 : ℚ) ^ WF) :=
    (Int.zpow_le_iff_le_log hone hq).mp hlow
  have hlt : Int.log 2 ((n : ℚ) / (2 : ℚ) ^ WF) < ((Nat.log 2 n : ℤ) - WF) + 1 :=
    (Int.lt_zpow_iff_log_lt hone hq).mp hupp
  omega

theorem n_of_mod_cases (WI WF : ℕ) (k : ℤ)
    (hlo : -(2 ^ (WI + WF) : ℤ) ≤ k) (hhi : k ≤ 2 ^ (WI + WF) - 1) :
    ((k % (2 : ℤ) ^ (WI + WF + 1)).toNat < 2 ^ (WI + WF + 1)) ∧
    (0 ≤ k → ((k % (2 : ℤ) ^ (WI + WF + 1)).toNat : ℤ) = k ∧
      (k % (2 : ℤ) ^ (WI + WF + 1)).toNat < 2 ^ (WI + WF)) ∧
    (k < 0 → ((k % (2 : ℤ) ^ (WI + WF + 1)).toNat : ℤ) = k + 2 ^ (WI + WF + 1) ∧
      2 ^ (WI + WF) ≤ (k % (2 : ℤ) ^ (WI + WF + 1)).toNat) := by
  have hcast : ((2 ^ (WI + WF + 1) : ℕ) : ℤ) = (2 : ℤ) ^ (WI + WF + 1) := by push_cast; ring
  have hcast2 : ((2 ^ (WI + WF) : ℕ) : ℤ) = (2 : ℤ) ^ (WI + WF) := by push_cast; ring
  have hW : (0 : ℤ) < 2 ^ (WI + WF + 1) := by positivity
  have hsplit : (2 : ℤ) ^ (WI + WF + 1) = 2 ^ (WI + WF) * 2 := by rw [pow_succ]
  constructor
  · have := emod_toNat_lt k (WI + WF + 1)
    omega
  constructor
  · intro h0
    have hklt : k < 2 ^ (WI + WF + 1) := by omega
    rw [Int.emod_eq_of_lt h0 hklt]
    omega
  · intro hneg
    have h1 : (k + 2 ^ (WI + WF + 1) * 1) % (2 ^ (WI + WF + 1)) = k % 2 ^ (WI + WF + 1) :=
      Int.add_mul_emod_self_left k (2 ^ (WI + WF + 1)) 1
    have h2 : (k + 2 ^ (WI + WF + 1)) % 2 ^ (WI + WF + 1) = k + 2 ^ (WI + WF + 1) :=
      Int.emod_eq_of_lt (by omega) (by omega)
    have h3 : k % (2 : ℤ) ^ (WI + WF + 1) = k + 2 ^ (WI + WF + 1) := by
      calc k % (2 : ℤ) ^ (WI + WF + 1) = (k + 2 ^ (WI + WF + 1) * 1) % 2 ^ (WI + WF + 1) := h1.symm
        _ = (k + 2 ^ (WI + WF + 1)) % 2 ^ (WI + WF + 1) := by ring_nf
        _ = k + 2 ^ (WI + WF + 1) := h2
    rw [h3]
    omega

theorem frmt2floatBinHex_correct (WI WF : ℕ) (qm : QuantMode) (ov : OvflMode)
    (hqm : qm ≠ QuantMode.dsm) (base v frc : ℕ)
    (k : ℤ) (hlo : -(2 ^ (WI + WF) : ℤ) ≤ k) (hhi : k ≤ 2 ^ (WI + WF) - 1)
    (c0 : Char) (t0 : List Char) (hc0 : ¬(c0 = '-'))
    (hparse : intParse base (c0 :: t0) = Option.some v)
    (hval : (v : ℚ) / (base : ℚ) ^ frc =
      (((k % (2 : ℤ) ^ (WI + WF + 1)).toNat : ℕ) : ℚ) / (2 : ℚ) ^ WF) :
    frmt2floatBinHex QFrmt.qfrac ⟨(WI : ℤ), (WF : ℤ), qm, ov⟩ base (c0 :: t0) frc =
      (k : ℚ) / (2 : ℚ) ^ WF := by
  set q : QDict := ⟨(WI : ℤ), (WF : ℤ), qm, ov⟩ with hq
  set n : ℕ := (k % (2 : ℤ) ^ (WI + WF + 1)).toNat with hn
  obtain ⟨hnlt, hpos, hneg⟩ := n_of_mod_cases WI WF k hlo hhi
  have hraise : quantRaises q.quant = false := by
    show quantRaises qm = false
    cases qm <;> simp_all [quantRaises]
  have hWp : (if QFrmt.qfrac = QFrmt.qint then q.WI + q.WF + 1 else q.WI + 1) =
      (WI : ℤ) + 1 := by
    rw [if_neg (by decide)]
  rw [frmt2floatBinHex]
  dsimp only
  rw [if_neg hc0, hparse]
  dsimp only
  rw [hval]
  have habs : |(((n : ℕ) : ℚ)) / (2 : ℚ) ^ WF| = ((n : ℕ) : ℚ) / (2 : ℚ) ^ WF := by
    apply abs_of_nonneg
    positivity
  rw [habs]
  by_cases hn0 : n = 0
  · have hk0 : k = 0 := by
      by_cases hk : 0 ≤ k
      · have := (hpos hk).1
        omega
      · have := (hneg (by omega)).1
        have hc : ((0 : ℕ) : ℤ) = (0 : ℤ) := rfl
        omega
    rw [if_pos (by rw [hn0]; simp), hk0]
    simp
  · rw [if_neg (by
      intro hz
      apply hn0
      have h2 : (0 : ℚ) < (2 : ℚ) ^ WF := by positivity
      field_simp at hz
      exact_mod_cast hz)]
    have hfq : (QFrmt.qfrac = QFrmt.qint) = False := by simp
    simp only [hfq, if_false]
    have hn1 : 1 ≤ n := by omega
    have hib : intBitsOf ((n : ℚ) / 2 ^ WF) =
        max ((Nat.log 2 n : ℤ) - WF + 1) 0 := by
      rw [intBitsOf, intLog2_div n WF hn1]
    have hns : decide (c0 = '-') = false := by simp [hc0]

    have hzp : (2 : ℚ) ^ q.WF = (2 : ℚ) ^ WF := by
      rw [hq]
      exact zpow_natCast 2 WF
    have hgrid : fixpVal QFrmt.qfrac q ScalingMode.div ((k : ℚ) / (2 : ℚ) ^ WF) =
        (k : ℚ) / (2 : ℚ) ^ WF := by
      rw [← hzp]
      obtain ⟨hg1, hg2⟩ := grid_bounds WI WF q (by rw [hq]) (by rw [hq]) k hlo hhi
      exact fixpVal_grid q ScalingMode.div k hg1 hg2
    rw [hib, hns]
    by_cases hk : 0 ≤ k
    · obtain ⟨hkn, hklt⟩ := hpos hk
      have hlog : Nat.log 2 n < WI + WF := Nat.log_lt_of_lt_pow hn0 hklt
      have hlogz : (Nat.log 2 n : ℤ) < (WI : ℤ) + (WF : ℤ) := by exact_mod_cast hlog
      rw [if_neg (by omega)]
      rw [binhexFinish, binhexTailAdjust]
      simp only [hraise, Bool.false_eq_true, if_false]
      rw [if_pos (by omega)]
      have hnk : ((n : ℕ) : ℚ) = (k : ℚ) := by
        rw [hn]
        exact_mod_cast hkn
      rw [hnk]
      exact hgrid
    · obtain ⟨hkn, hkge⟩ := hneg (by omega)
      have hlog : Nat.log 2 n = WI + WF := by
        have h1 : WI + WF ≤ Nat.log 2 n :=
          Nat.le_log_of_pow_le (by norm_num) hkge
        have h2 : Nat.log 2 n < WI + WF + 1 := Nat.log_lt_of_lt_pow hn0 hnlt
        omega
      have hlogz : (Nat.log 2 n : ℤ) = (WI : ℤ) + (WF : ℤ) := by exact_mod_cast hlog
      rw [if_neg (by omega)]
      rw [binhexFinish, binhexTailAdjust]
      simp only [hraise, Bool.false_eq_true, if_false]
      rw [if_neg (by omega), if_pos (by omega)]
      have htn : (max ((Nat.log 2 n : ℤ) - ↑WF + 1) 0).toNat = WI + 1 := by omega
      rw [htn]
      have hnk : ((n : ℕ) : ℚ) = (k : ℚ) + 2 ^ (WI + WF + 1) := by
        rw [hn]
        exact_mod_cast hkn
      have hval2 : ((n : ℕ) : ℚ) / 2 ^ WF - (2 : ℚ) ^ (WI + 1) = (k : ℚ) / 2 ^ WF := by
        rw [hnk]
        have h2 : ((2 : ℚ) ^ WF) ≠ 0 := by positivity
        field_simp
        ring
      rw [hval2]
      exact hgrid

theorem npRoundInt_intCast (k : ℤ) : npRoundInt ((k : ℚ)) = k := by
  rw [npRoundInt]
  norm_num

theorem i64trunc_intCast (k : ℤ) : i64trunc ((k : ℚ)) = k := by
  rw [i64trunc]
  by_cases h : (0 : ℚ) ≤ (k : ℚ)
  · rw [if_pos h, Int.floor_intCast]
  · rw [if_neg h, Int.ceil_intCast]

theorem legal_bin_bit (c : Char) (hc : c = '0' ∨ c = '1') :
    legalChar FxBase.bin c = true := by
  rcases hc with rfl | rfl <;> decide

theorem legal_hex_digitChar (v : ℕ) (hv : v < 16) :
    legalChar FxBase.hex (digitChar v) = true := by
  interval_cases v <;> decide

theorem digitChar_ne_dot (v : ℕ) (hv : v < 16) : digitChar v ≠ '.' := by
  interval_cases v <;> decide

theorem digitChar_ne_comma (v : ℕ) (hv : v < 16) : digitChar v ≠ ',' := by
  interval_cases v <;> decide

theorem digitChar_ne_minus (v : ℕ) (hv : v < 16) : digitChar v ≠ '-' := by
  interval_cases v <;> decide

theorem bit_ne_dot (c : Char) (hc : c = '0' ∨ c = '1') : c ≠ '.' := by
  rcases hc with rfl | rfl <;> decide

theorem bit_ne_comma (c : Char) (hc : c = '0' ∨ c = '1') : c ≠ ',' := by
  rcases hc with rfl | rfl <;> decide

theorem bit_ne_minus (c : Char) (hc : c = '0' ∨ c = '1') : c ≠ '-' := by
  rcases hc with rfl | rfl <;> decide

theorem strip0w_subset_or_zero (A : List Char) (c : Char) (hc : c ∈ strip0w A) :
    c = '0' ∨ c ∈ A := by
  rw [strip0w] at hc
  by_cases h : strip0 A = []
  · rw [if_pos h] at hc
    simp at hc
    left; exact hc
  · rw [if_neg h] at hc
    right; exact mem_of_mem_strip0 A c hc

theorem strip0w_ne_nil (A : List Char) : strip0w A ≠ [] := by
  rw [strip0w]
  by_cases h : strip0 A = []
  · rw [if_pos h]; simp
  · rw [if_neg h]; exact h

theorem roundtrip_bin (WI WF : ℕ) (qm : QuantMode) (ov : OvflMode)
    (hqm : qm ≠ QuantMode.dsm) (k : ℤ)
    (hlo : -(2 ^ (WI + WF) : ℤ) ≤ k) (hhi : k ≤ 2 ^ (WI + WF) - 1) :
    roundtrip QFrmt.qfrac FxBase.bin ⟨(WI : ℤ), (WF : ℤ), qm, ov⟩
        ((k : ℚ) / (2 : ℚ) ^ WF) =
      Except.ok ((k : ℚ) / (2 : ℚ) ^ WF) := by
  set q : QDict := ⟨(WI : ℤ), (WF : ℤ), qm, ov⟩ with hq
  set W : ℕ := WI + WF + 1 with hW
  have hraise : quantRaises q.quant = false := by
    show quantRaises qm = false
    cases qm <;> simp_all [quantRaises]
  have hzp : (2 : ℚ) ^ q.WF = (2 : ℚ) ^ WF := by
    show (2 : ℚ) ^ ((WF : ℕ) : ℤ) = (2 : ℚ) ^ WF
    exact zpow_natCast 2 WF
  have hgval : ((k : ℚ) / (2 : ℚ) ^ WF) = (k : ℚ) / (2 : ℚ) ^ q.WF := by rw [hzp]
  obtain ⟨hg1, hg2⟩ := grid_bounds WI WF q rfl rfl k hlo hhi
  have hfix : fixpVal QFrmt.qfrac q ScalingMode.mult ((k : ℚ) / (2 : ℚ) ^ WF) =
      (k : ℚ) / (2 : ℚ) ^ WF := by
    rw [hgval]
    exact fixpVal_grid q ScalingMode.mult k hg1 hg2
  -- the rendered integer is k
  have hint : npRoundInt (((k : ℚ) / (2 : ℚ) ^ WF) / LSBof QFrmt.qfrac q) = k := by
    have hL : LSBof QFrmt.qfrac q = (2 : ℚ) ^ (-(WF : ℤ)) := by
      rw [LSBof, if_neg (by decide)]
    rw [hL, show ((k : ℚ) / (2 : ℚ) ^ WF) / (2 : ℚ) ^ (-(WF : ℤ)) = (k : ℚ) by
      rw [zpow_neg, zpow_natCast]
      field_simp]
    exact npRoundInt_intCast k
  have h2W : (2 : ℤ) ^ W = 2 * 2 ^ (WI + WF) := by rw [hW, pow_succ]; ring
  have hWlo : -(2 ^ W : ℤ) ≤ k := by omega
  have hWhi : k < (2 ^ W : ℤ) := by omega
  have hW1 : 1 ≤ W := by omega
  set BITS : List Char := binary_repr k W with hBITS
  have hlen : BITS.length = W := binary_repr_length k W hW1 hWlo hWhi
  have hbits : isBits BITS := binary_repr_bits k W
  have hpv : pv 2 BITS = (k % (2 : ℤ) ^ W).toNat := binary_repr_pv k W hWlo hWhi
  set A : List Char := BITS.take (WI + 1) with hA
  set B : List Char := BITS.drop (WI + 1) with hB
  have hAB : A ++ B = BITS := List.take_append_drop (WI + 1) BITS
  have hAlen : A.length = WI + 1 := by
    rw [hA, List.length_take, hlen]
    omega
  have hBlen : B.length = WF := by
    rw [hB, List.length_drop, hlen]
    omega
  have hAbits : isBits A := fun c hc => hbits c (hAB ▸ List.mem_append_left B hc)
  have hBbits : isBits B := fun c hc => hbits c (hAB ▸ List.mem_append_right A hc)
  have hpvsplit : pv 2 A * 2 ^ WF + pv 2 B = (k % (2 : ℤ) ^ W).toNat := by
    rw [← hpv, ← hAB, pv_append, hBlen]
  -- render
  have htN : (q.WI + q.WF + 1).toNat = W := by
    show ((WI : ℤ) + (WF : ℤ) + 1).toNat = W
    omega
  have htI : (q.WI + 1).toNat = WI + 1 := by
    show ((WI : ℤ) + 1).toNat = WI + 1
    omega
  have hrender : float2frmt QFrmt.qfrac FxBase.bin q ((k : ℚ) / (2 : ℚ) ^ WF) =
      Except.ok (A ++ '.' :: B) := by
    rw [float2frmt, hraise]
    simp only [Bool.false_eq_true, if_false]
    rw [hfix, hint]
    rw [if_neg (by decide : ¬(QFrmt.qfrac = QFrmt.qint))]
    rw [htN, insertBinaryPoint]
    rw [show (if QFrmt.qfrac = QFrmt.qint then q.WI + q.WF + 1 else q.WI) = q.WI by
      rw [if_neg (by decide)]]
    rw [htI]
  -- parse
  obtain ⟨c0, t0, hct⟩ : ∃ c0 t0, strip0w A = c0 :: t0 := by
    cases h : strip0w A with
    | nil => exact absurd h (strip0w_ne_nil A)
    | cons c0 t0 => exact ⟨c0, t0, rfl⟩
  have hc0bit : c0 = '0' ∨ c0 = '1' := by
    have hmem : c0 ∈ strip0w A := by rw [hct]; exact List.mem_cons_self c0 t0
    rcases strip0w_subset_or_zero A c0 hmem with h | h
    · left; exact h
    · exact hAbits c0 h
  have hrawbits : isBits (strip0w A ++ B) := by
    apply isBits_append
    · intro c hc
      rcases strip0w_subset_or_zero A c hc with h | h
      · left; exact h
      · exact hAbits c h
    · exact hBbits
  have hrawval : pv 2 (strip0w A ++ B) = (k % (2 : ℤ) ^ W).toNat := by
    rw [pv_append, pv_strip0w 2 (by norm_num), hBlen]
    exact hpvsplit
  have hparse2 : intParse 2 (strip0w A ++ B) =
      Option.some ((k % (2 : ℤ) ^ W).toNat) := by
    rw [intParse_eq_pv 2 _ (by rw [hct]; simp) (bits_valid 2 (le_refl 2) _ hrawbits),
      hrawval]
  have hpre : frmtPreprocess FxBase.bin (A ++ '.' :: B) =
      Option.some (strip0w A ++ '.' :: B, B.length, strip0w A ++ B) := by
    apply frmtPreprocess_dot
    · exact fun c hc => legal_bin_bit c (hAbits c hc)
    · exact fun c hc => legal_bin_bit c (hBbits c hc)
    · decide
    · intro hmem; exact bit_ne_dot '.' (hAbits '.' hmem) rfl
    · intro hmem; exact bit_ne_dot '.' (hBbits '.' hmem) rfl
    · intro hmem; exact bit_ne_comma ',' (hAbits ',' hmem) rfl
    · intro hmem; exact bit_ne_comma ',' (hBbits ',' hmem) rfl
  have hbranch : frmt2floatBinHex QFrmt.qfrac q 2 (strip0w A ++ B) WF =
      (k : ℚ) / (2 : ℚ) ^ WF := by
    have hct2 : strip0w A ++ B = c0 :: (t0 ++ B) := by rw [hct]; rfl
    rw [hct2]
    apply frmt2floatBinHex_correct WI WF qm ov hqm 2 _ WF k hlo hhi c0 (t0 ++ B)
      (bit_ne_minus c0 hc0bit)
    · rw [← hct2, hparse2, hW]
    · rw [← hW]
      push_cast
      rfl
  unfold roundtrip
  rw [hrender]
  unfold frmt2float_scalar
  dsimp only
  rw [hpre]
  dsimp only
  rw [hBlen, hbranch]

theorem digitChar_list_valid16 (L : List Char)
    (hL : ∀ c ∈ L, ∃ v, v < 16 ∧ c = digitChar v) : validDigits 16 L := by
  intro c hc
  obtain ⟨v, hv, rfl⟩ := hL c hc
  rw [digitVal_digitChar 16 v (le_refl 16) hv]
  rfl

theorem strip0w_chars (A : List Char) (P : Char → Prop) (hP : P '0')
    (hA : ∀ c ∈ A, P c) : ∀ c ∈ strip0w A, P c := by
  intro c hc
  rcases strip0w_subset_or_zero A c hc with rfl | h
  · exact hP
  · exact hA c h

theorem pv_strip0_16 (A : List Char) : pv 16 (strip0 A) = pv 16 A :=
  pv_dropWhile_zeros 16 (by norm_num) A

/-- Value and shape of `bin2hex` on a W-bit string split as integer part `A`
    (the top `WI + 1` bits) and fractional part `B` (the low `WF` bits). -/
theorem toNat_add_one (WI : ℕ) : ((WI : ℤ) + 1).toNat = WI + 1 := by
  omega

theorem bin2hex_spec (WI WF : ℕ) (BITS : List Char) (hlen : BITS.length = WI + WF + 1) :
    (WF = 0 → bin2hex BITS (WI : ℤ) =
      (if 0 < WI then toNibbles (pad4Left BITS) else BITS.take 1)) ∧
    (0 < WF → bin2hex BITS (WI : ℤ) =
      (if 0 < WI then toNibbles (pad4Left (BITS.take (WI + 1)))
        else BITS.take 1) ++ '.' :: toNibbles (pad4Right (BITS.drop (WI + 1)))) := by
  rw [bin2hex]
  rw [toNat_add_one]
  constructor
  · intro h0
    have hWFb : ¬((0 : ℤ) < (BITS.length : ℤ) - (WI : ℤ) - 1) := by
      rw [hlen]; push_cast; omega
    rw [if_neg hWFb]
    have htake : BITS.take (WI + 1) = BITS := by
      apply List.take_of_length_le
      omega
    by_cases hWI : 0 < WI
    · rw [if_pos (by exact_mod_cast hWI : (0 : ℤ) < (WI : ℤ)), if_pos hWI, htake]
      rw [if_neg (by
        intro hemp
        have hL := congrArg List.length hemp
        rw [toNibbles_length _ (pad4Left_mod BITS)] at hL
        simp only [List.length_nil] at hL
        have hge : 4 ≤ (pad4Left BITS).length := by
          simp [pad4Left]
          omega
        omega)]
    · rw [if_neg (by omega : ¬((0 : ℤ) < (WI : ℤ))), if_neg hWI]
      rw [if_neg (by
        intro hemp
        have hL := congrArg List.length hemp
        rw [List.length_take, hlen] at hL
        simp at hL)]
  · intro hWF
    have hWFb : ((0 : ℤ) < (BITS.length : ℤ) - (WI : ℤ) - 1) := by
      rw [hlen]; push_cast; omega
    rw [if_pos hWFb]
    by_cases hWI : 0 < WI
    · rw [if_pos (by exact_mod_cast hWI : (0 : ℤ) < (WI : ℤ)), if_pos hWI]
      rw [if_neg (by simp)]
    · rw [if_neg (by omega : ¬((0 : ℤ) < (WI : ℤ))), if_neg hWI]
      rw [if_neg (by simp)]

theorem hex_val_eq (nI nF WF padF F : ℕ) (hpad : WF + padF = 4 * F) :
    ((nI * 16 ^ F + nF * 2 ^ padF : ℕ) : ℚ) / ((16 : ℕ) : ℚ) ^ F =
      ((nI * 2 ^ WF + nF : ℕ) : ℚ) / (2 : ℚ) ^ WF := by
  have h16 : ((16 : ℕ) : ℚ) = (2 : ℚ) ^ 4 := by norm_num
  rw [h16, ← pow_mul, div_eq_div_iff (by positivity) (by positivity)]
  push_cast
  rw [show (16 : ℚ) ^ F = 2 ^ (4 * F) by
      rw [show (16 : ℚ) = 2 ^ 4 by norm_num, ← pow_mul],
    show 4 * F = WF + padF from hpad.symm, pow_add]
  ring

theorem pad4Right_four_dvd (s : List Char) :
    s.length + (4 - s.length % 4) % 4 = 4 * ((pad4Right s).length / 4) := by
  have h := pad4Right_mod s
  have hlen : (pad4Right s).length = s.length + (4 - s.length % 4) % 4 := by
    simp [pad4Right]
  omega

theorem roundtrip_hex (WI WF : ℕ) (qm : QuantMode) (ov : OvflMode)
    (hqm : qm ≠ QuantMode.dsm) (k : ℤ)
    (hlo : -(2 ^ (WI + WF) : ℤ) ≤ k) (hhi : k ≤ 2 ^ (WI + WF) - 1) :
    roundtrip QFrmt.qfrac FxBase.hex ⟨(WI : ℤ), (WF : ℤ), qm, ov⟩
        ((k : ℚ) / (2 : ℚ) ^ WF) =
      Except.ok ((k : ℚ) / (2 : ℚ) ^ WF) := by
  set q : QDict := ⟨(WI : ℤ), (WF : ℤ), qm, ov⟩ with hq
  set W : ℕ := WI + WF + 1 with hW
  have hraise : quantRaises q.quant = false := by
    show quantRaises qm = false
    cases qm <;> simp_all [quantRaises]
  have hzp : (2 : ℚ) ^ q.WF = (2 : ℚ) ^ WF := by
    show (2 : ℚ) ^ ((WF : ℕ) : ℤ) = (2 : ℚ) ^ WF
    exact zpow_natCast 2 WF
  obtain ⟨hg1, hg2⟩ := grid_bounds WI WF q rfl rfl k hlo hhi
  have hfix : fixpVal QFrmt.qfrac q ScalingMode.mult ((k : ℚ) / (2 : ℚ) ^ WF) =
      (k : ℚ) / (2 : ℚ) ^ WF := by
    rw [show ((k : ℚ) / (2 : ℚ) ^ WF) = (k : ℚ) / (2 : ℚ) ^ q.WF by rw [hzp]]
    exact fixpVal_grid q ScalingMode.mult k hg1 hg2
  have hint : npRoundInt (((k : ℚ) / (2 : ℚ) ^ WF) / LSBof QFrmt.qfrac q) = k := by
    have hL : LSBof QFrmt.qfrac q = (2 : ℚ) ^ (-(WF : ℤ)) := by
      rw [LSBof, if_neg (by decide)]
    rw [hL, show ((k : ℚ) / (2 : ℚ) ^ WF) / (2 : ℚ) ^ (-(WF : ℤ)) = (k : ℚ) by
      rw [zpow_neg, zpow_natCast]
      field_simp]
    exact npRoundInt_intCast k
  have h2W : (2 : ℤ) ^ W = 2 * 2 ^ (WI + WF) := by rw [hW, pow_succ]; ring
  have hWlo : -(2 ^ W : ℤ) ≤ k := by omega
  have hWhi : k < (2 ^ W : ℤ) := by omega
  have hW1 : 1 ≤ W := by omega
  set BITS : List Char := binary_repr k W with hBITS
  have hlen : BITS.length = W := binary_repr_length k W hW1 hWlo hWhi
  have hbits : isBits BITS := binary_repr_bits k W
  have hpv : pv 2 BITS = (k % (2 : ℤ) ^ W).toNat := binary_repr_pv k W hWlo hWhi
  set A : List Char := BITS.take (WI + 1) with hA
  set B : List Char := BITS.drop (WI + 1) with hB
  have hAB : A ++ B = BITS := List.take_append_drop (WI + 1) BITS
  have hAlen : A.length = WI + 1 := by
    rw [hA, List.length_take, hlen]
    omega
  have hBlen : B.length = WF := by
    rw [hB, List.length_drop, hlen]
    omega
  have hAbits : isBits A := fun c hc => hbits c (hAB ▸ List.mem_append_left B hc)
  have hBbits : isBits B := fun c hc => hbits c (hAB ▸ List.mem_append_right A hc)
  have hpvsplit : pv 2 A * 2 ^ WF + pv 2 B = (k % (2 : ℤ) ^ W).toNat := by
    rw [← hpv, ← hAB, pv_append, hBlen]
  have htN : (q.WI + q.WF + 1).toNat = W := by
    show ((WI : ℤ) + (WF : ℤ) + 1).toNat = W
    omega
  -- the integer-part hex digits
  set Hi : List Char := if 0 < WI then toNibbles (pad4Left A) else BITS.take 1
    with hHi
  have hA1 : WI = 0 → A = BITS.take 1 := by
    intro h0
    rw [hA, h0]
  have hHichars : ∀ c ∈ Hi, ∃ v, v < 16 ∧ c = digitChar v := by
    intro c hc
    rw [hHi] at hc
    by_cases hWI : 0 < WI
    · rw [if_pos hWI] at hc
      exact toNibbles_chars _ c hc
    · rw [if_neg hWI] at hc
      rw [← hA1 (by omega)] at hc
      rcases hAbits c hc with rfl | rfl
      · exact ⟨0, by norm_num, rfl⟩
      · exact ⟨1, by norm_num, rfl⟩
  have hHipv : pv 16 Hi = pv 2 A := by
    rw [hHi]
    by_cases hWI : 0 < WI
    · rw [if_pos hWI]
      rw [toNibbles_pv _ (pad4Left_mod A)
        (isBits_append _ _ (isBits_replicate_zeros _) hAbits)]
      exact pad4Left_pv 2 (by norm_num) A
    · rw [if_neg hWI, ← hA1 (by omega)]
      cases hAe : A with
      | nil => rfl
      | cons c t =>
        have hlt : t.length + 1 = WI + 1 := by
          rw [hAe] at hAlen
          simpa using hAlen
        have hct : t = [] := by
          rw [← List.length_eq_zero]
          omega
        subst hct
        have hcb := hAbits c (by rw [hAe]; exact List.mem_cons_self c [])
        rw [pv_cons, pv_cons, pv_nil, bits_dv 16 (by norm_num) c hcb]
        simp [pv_nil]
  have hHidigits : validDigits 16 Hi := digitChar_list_valid16 Hi hHichars
  have hHidot : '.' ∉ Hi := fun hm => by
    obtain ⟨v, hv, he⟩ := hHichars '.' hm
    exact digitChar_ne_dot v hv he.symm
  have hHicom : ',' ∉ Hi := fun hm => by
    obtain ⟨v, hv, he⟩ := hHichars ',' hm
    exact digitChar_ne_comma v hv he.symm
  have hHileg : ∀ c ∈ Hi, legalChar FxBase.hex c = true := fun c hc => by
    obtain ⟨v, hv, rfl⟩ := hHichars c hc
    exact legal_hex_digitChar v hv
  have hrender0 : float2frmt QFrmt.qfrac FxBase.hex q ((k : ℚ) / (2 : ℚ) ^ WF) =
      Except.ok (bin2hex BITS (WI : ℤ)) := by
    rw [float2frmt, hraise]
    simp only [Bool.false_eq_true, if_false]
    rw [hfix, hint, htN]
    rw [show (if QFrmt.qfrac = QFrmt.qint then q.WI + q.WF + 1 else q.WI) = q.WI by
      rw [if_neg (by decide)]]
  obtain ⟨hbh0, hbhpos⟩ := bin2hex_spec WI WF BITS hlen
  by_cases hWF : WF = 0
  · -- no fractional hex digits, no radix point
    have hA0 : A = BITS := by
      rw [hA]
      apply List.take_of_length_le
      omega
    have hHi0 : Hi = if 0 < WI then toNibbles (pad4Left BITS) else BITS.take 1 := by
      rw [hHi, hA0]
    have hbh : bin2hex BITS (WI : ℤ) = Hi := by rw [hbh0 hWF, hHi0]
    have hpre := frmtPreprocess_nodot FxBase.hex Hi hHileg hHidot hHicom
    have hn2 : pv 2 A = (k % (2 : ℤ) ^ W).toNat := by
      have hB0 : B = [] := by
        rw [← List.length_eq_zero, hBlen, hWF]
      rw [← hpvsplit, hB0, hWF]
      simp [pv_nil]
    unfold roundtrip
    rw [hrender0, hbh]
    unfold frmt2float_scalar
    dsimp only
    rw [hpre]
    by_cases hstrip : strip0 Hi = []
    · rw [if_pos hstrip]
      have hk0 : k = 0 := by
        have hpv0 : pv 16 Hi = 0 := by
          rw [← pv_strip0_16, hstrip, pv_nil]
        have hn0 : (k % (2 : ℤ) ^ W).toNat = 0 := by
          rw [← hn2, ← hHipv, hpv0]
        rw [hW] at hn0
        obtain ⟨hnlt, hpos, hneg⟩ := n_of_mod_cases WI WF k hlo hhi
        by_cases hksgn : 0 ≤ k
        · have := (hpos hksgn).1
          omega
        · have := (hneg (by omega)).1
          have hle : (2 : ℤ) ^ (WI + WF) ≤ 2 ^ (WI + WF + 1) := by
            have := h2W
            omega
          omega
      rw [hk0]
      simp
    · rw [if_neg hstrip]
      dsimp only
      obtain ⟨c0, t0, hct⟩ : ∃ c0 t0, strip0 Hi = c0 :: t0 := by
        cases h : strip0 Hi with
        | nil => exact absurd h hstrip
        | cons c0 t0 => exact ⟨c0, t0, rfl⟩
      have hc0m : c0 ∈ Hi :=
        mem_of_mem_strip0 Hi c0 (by rw [hct]; exact List.mem_cons_self c0 t0)
      have hc0minus : ¬(c0 = '-') := by
        obtain ⟨v, hv, he⟩ := hHichars c0 hc0m
        intro hcon
        exact digitChar_ne_minus v hv (by rw [← he, hcon])
      have hparse16 : intParse 16 (strip0 Hi) =
          Option.some ((k % (2 : ℤ) ^ W).toNat) := by
        rw [intParse_eq_pv 16 _ hstrip
          (fun c hc => hHidigits c (mem_of_mem_strip0 Hi c hc))]
        rw [pv_strip0_16, hHipv, hn2]
      rw [hct]
      rw [frmt2floatBinHex_correct WI WF qm ov hqm 16 _ 0 k hlo hhi c0 t0 hc0minus
        (by rw [← hct, hparse16, hW]) (by rw [← hW, hWF]; push_cast; simp)]
  · have hWFpos : 0 < WF := by omega
    set Hf : List Char := toNibbles (pad4Right B) with hHf
    set F : ℕ := Hf.length with hF
    set padF : ℕ := (4 - B.length % 4) % 4 with hpadF
    have hFlen : F = (pad4Right B).length / 4 := by
      rw [hF, hHf, toNibbles_length _ (pad4Right_mod B)]
    have h4F : WF + padF = 4 * F := by
      have h := pad4Right_four_dvd B
      rw [hBlen] at h
      rw [hFlen, hpadF, hBlen]
      exact h
    have hHfchars : ∀ c ∈ Hf, ∃ v, v < 16 ∧ c = digitChar v := by
      intro c hc
      rw [hHf] at hc
      exact toNibbles_chars _ c hc
    have hHfdigits : validDigits 16 Hf := digitChar_list_valid16 Hf hHfchars
    have hHfdot : '.' ∉ Hf := fun hm => by
      obtain ⟨v, hv, he⟩ := hHfchars '.' hm
      exact digitChar_ne_dot v hv he.symm
    have hHfcom : ',' ∉ Hf := fun hm => by
      obtain ⟨v, hv, he⟩ := hHfchars ',' hm
      exact digitChar_ne_comma v hv he.symm
    have hHfleg : ∀ c ∈ Hf, legalChar FxBase.hex c = true := fun c hc => by
      obtain ⟨v, hv, rfl⟩ := hHfchars c hc
      exact legal_hex_digitChar v hv
    have hHfpv : pv 16 Hf = pv 2 B * 2 ^ padF := by
      rw [hHf, toNibbles_pv _ (pad4Right_mod B)
        (isBits_append _ _ hBbits (isBits_replicate_zeros _))]
      rw [pad4Right_pv 2 (by norm_num) B, hpadF]
    have hbh : bin2hex BITS (WI : ℤ) = Hi ++ '.' :: Hf := by
      rw [hbhpos hWFpos, hHf, hHi, hA, hB]
    have hpre := frmtPreprocess_dot FxBase.hex Hi Hf hHileg hHfleg (by decide)
      hHidot hHfdot hHicom hHfcom
    unfold roundtrip
    rw [hrender0, hbh]
    unfold frmt2float_scalar
    dsimp only
    rw [hpre]
    dsimp only
    obtain ⟨c0, t0, hct⟩ : ∃ c0 t0, strip0w Hi = c0 :: t0 := by
      cases h : strip0w Hi with
      | nil => exact absurd h (strip0w_ne_nil Hi)
      | cons c0 t0 => exact ⟨c0, t0, rfl⟩
    have hc0minus : ¬(c0 = '-') := by
      have hmem : c0 ∈ strip0w Hi := by rw [hct]; exact List.mem_cons_self c0 t0
      rcases strip0w_subset_or_zero Hi c0 hmem with rfl | h
      · decide
      · obtain ⟨v, hv, he⟩ := hHichars c0 h
        intro hcon
        exact digitChar_ne_minus v hv (by rw [← he, hcon])
    have hvalid : validDigits 16 (strip0w Hi ++ Hf) := by
      intro c hc
      rcases List.mem_append.mp hc with h | h
      · rcases strip0w_subset_or_zero Hi c h with rfl | h2
        · simp [digitVal, charHexVal]
        · exact hHidigits c h2
      · exact hHfdigits c h
    have hpvraw : pv 16 (strip0w Hi ++ Hf) =
        pv 2 A * 16 ^ F + pv 2 B * 2 ^ padF := by
      rw [pv_append, pv_strip0w 16 (by norm_num), hHipv, hHfpv, ← hF]
    have hparse16 : intParse 16 (strip0w Hi ++ Hf) =
        Option.some (pv 2 A * 16 ^ F + pv 2 B * 2 ^ padF) := by
      rw [intParse_eq_pv 16 _ (by rw [hct]; simp) hvalid, hpvraw]
    have hvq : ((pv 2 A * 16 ^ F + pv 2 B * 2 ^ padF : ℕ) : ℚ) /
        ((16 : ℕ) : ℚ) ^ F =
        (((k % (2 : ℤ) ^ (WI + WF + 1)).toNat : ℕ) : ℚ) / (2 : ℚ) ^ WF := by
      rw [hex_val_eq (pv 2 A) (pv 2 B) WF padF F h4F]
      rw [hpvsplit, hW]
    have hct2 : strip0w Hi ++ Hf = c0 :: (t0 ++ Hf) := by rw [hct]; rfl
    rw [hct2]
    rw [frmt2floatBinHex_correct WI WF qm ov hqm 16 _ F k hlo hhi c0 (t0 ++ Hf)
      hc0minus (by rw [← hct2, hparse16]) hvq]

theorem dropWhile_append_stop (p : Char → Bool) (A : List Char) (c : Char)
    (t : List Char) (hA : ∀ x ∈ A, p x = true) (hc : p c = false) :
    (A ++ c :: t).dropWhile p = c :: t := by
  induction A with
  | nil => simp [List.dropWhile_cons, hc]
  | cons a A ih =>
    rw [List.cons_append, List.dropWhile_cons_of_pos (hA a (List.mem_cons_self a A))]
    exact ih (fun x hx => hA x (List.mem_cons_of_mem _ hx))

theorem natToBaseString_chars (b n : ℕ) (hb1 : 1 < b) (hb : b ≤ 16) :
    ∀ c ∈ natToBaseString b n, ∃ v, v < b ∧ c = digitChar v := by
  intro c hc
  rw [natToBaseString] at hc
  by_cases hn : n = 0
  · rw [if_pos hn] at hc
    simp at hc
    exact ⟨0, by omega, by rw [hc]; rfl⟩
  · rw [if_neg hn] at hc
    simp only [List.mem_map, List.mem_reverse] at hc
    obtain ⟨d, hd, rfl⟩ := hc
    exact ⟨d, Nat.digits_lt_base hb1 hd, rfl⟩

theorem legal_dec_digitChar (v : ℕ) (hv : v < 10) :
    legalChar FxBase.dec (digitChar v) = true := by
  interval_cases v <;> decide

theorem strip0w_natToBaseString (b n : ℕ) (hb1 : 1 < b) (hb : b ≤ 16) :
    strip0w (natToBaseString b n) = natToBaseString b n := by
  by_cases hn : n = 0
  · subst hn
    rw [natToBaseString, if_pos rfl]
    rfl
  · rw [strip0w]
    obtain ⟨c, t, hct⟩ : ∃ c t, natToBaseString b n = c :: t := by
      cases h : natToBaseString b n with
      | nil => exact absurd h (natToBaseString_ne_nil b n)
      | cons c t => exact ⟨c, t, rfl⟩
    have hc0 : c ≠ '0' := by
      apply natToBaseString_head_ne_zero b n hb1 hb hn
      rw [hct]
      rfl
    rw [hct, strip0_cons_stop c t hc0, if_neg (by simp)]

theorem contains_eq_false_of_not_mem (s : List Char) (c : Char) (h : c ∉ s) :
    s.contains c = false := by
  simpa using h

theorem parsePyFloatCore_parts (A B : List Char) (hAne : A ≠ [])
    (hAv : validDigits 10 A) (hBv : validDigits 10 B)
    (hAdot : '.' ∉ A) (hBdot : '.' ∉ B) (hBne : B ≠ []) :
    parsePyFloatCore (A ++ '.' :: B) =
      Option.some ((pv 10 A : ℚ) + (pv 10 B : ℚ) / 10 ^ B.length) := by
  rw [parsePyFloatCore]
  have hAp : ∀ x ∈ A, (fun c => decide (c ≠ '.')) x = true := by
    intro x hx
    simp
    exact fun he => hAdot (he ▸ hx)
  have htake : (A ++ '.' :: B).takeWhile (fun c => c ≠ '.') = A :=
    takeWhile_append_stop _ A '.' B hAp (by simp)
  have hdrop : (A ++ '.' :: B).dropWhile (fun c => c ≠ '.') = '.' :: B :=
    dropWhile_append_stop _ A '.' B hAp (by simp)
  rw [htake, hdrop]
  dsimp only
  rw [if_neg (by rw [contains_eq_false_of_not_mem B '.' hBdot]; simp)]
  rw [if_neg (by intro h; exact hAne h.1)]
  rw [if_neg hAne, if_neg hBne, intParse_eq_pv 10 A hAne hAv,
    intParse_eq_pv 10 B hBne hBv]

theorem ratToDec_core (kabs WF : ℕ) :
    ⌊((kabs : ℚ) / 2 ^ WF)⌋ = (kabs / 2 ^ WF : ℕ) ∧
    ⌊(((kabs : ℚ) / 2 ^ WF) - ((kabs / 2 ^ WF : ℕ) : ℚ)) * 10 ^ WF⌋ =
      ((kabs % 2 ^ WF) * 5 ^ WF : ℕ) := by
  have h2 : (0 : ℚ) < 2 ^ WF := by positivity
  have hdm := Nat.div_add_mod kabs (2 ^ WF)
  set d : ℕ := kabs / 2 ^ WF with hd
  set r : ℕ := kabs % 2 ^ WF with hr
  have hrlt : r < 2 ^ WF := Nat.mod_lt kabs (by positivity)
  have hcastq : (kabs : ℚ) = (2 : ℚ) ^ WF * (d : ℚ) + (r : ℚ) := by
    exact_mod_cast hdm.symm
  have hx : (kabs : ℚ) / 2 ^ WF = (d : ℚ) + (r : ℚ) / 2 ^ WF := by
    rw [hcastq]
    field_simp
    ring
  have hfl : ⌊((kabs : ℚ) / 2 ^ WF)⌋ = (d : ℤ) := by
    rw [hx, Int.floor_eq_iff]
    constructor
    · push_cast
      have : (0 : ℚ) ≤ (r : ℚ) / 2 ^ WF := by positivity
      linarith
    · push_cast
      have : (r : ℚ) / 2 ^ WF < 1 := by
        rw [div_lt_one h2]
        exact_mod_cast hrlt
      linarith
  refine ⟨hfl, ?_⟩
  rw [hx]
  have hsub : ((d : ℚ) + (r : ℚ) / 2 ^ WF - (d : ℚ)) = (r : ℚ) / 2 ^ WF := by ring
  rw [hsub]
  have hmul : ((r : ℚ) / 2 ^ WF) * 10 ^ WF = ((r * 5 ^ WF : ℕ) : ℚ) := by
    push_cast
    rw [show (10 : ℚ) ^ WF = 2 ^ WF * 5 ^ WF by rw [← mul_pow]; norm_num]
    field_simp
    ring
  rw [hmul, Int.floor_natCast]

theorem ratToDecString_nonneg (kabs WF : ℕ) :
    ratToDecString ((kabs : ℚ) / 2 ^ WF) WF =
      natToBaseString 10 (kabs / 2 ^ WF) ++ '.' ::
        padLeftZeros WF (natToBaseString 10 ((kabs % 2 ^ WF) * 5 ^ WF)) := by
  obtain ⟨h1, h2⟩ := ratToDec_core kabs WF
  have hnn : (0 : ℚ) ≤ (kabs : ℚ) / 2 ^ WF := by positivity
  rw [ratToDecString, abs_of_nonneg hnn, h1]
  rw [Int.cast_natCast, h2]
  rw [if_neg (by simp [not_lt]; positivity)]
  rw [Int.toNat_natCast, Int.toNat_natCast]

theorem ratToDecString_neg (kabs WF : ℕ) (hk : 0 < kabs) :
    ratToDecString (-((kabs : ℚ) / 2 ^ WF)) WF =
      '-' :: (natToBaseString 10 (kabs / 2 ^ WF) ++ '.' ::
        padLeftZeros WF (natToBaseString 10 ((kabs % 2 ^ WF) * 5 ^ WF))) := by
  obtain ⟨h1, h2⟩ := ratToDec_core kabs WF
  have hneg : -((kabs : ℚ) / 2 ^ WF) < 0 := by
    have : (0 : ℚ) < (kabs : ℚ) / 2 ^ WF := by positivity
    linarith
  have habs : |(-((kabs : ℚ) / 2 ^ WF))| = (kabs : ℚ) / 2 ^ WF := by
    rw [abs_neg, abs_of_nonneg (by positivity)]
  rw [ratToDecString, habs, h1]
  rw [Int.cast_natCast, h2]
  rw [if_pos hneg]
  rw [Int.toNat_natCast, Int.toNat_natCast]

theorem takeWhile_all (p : Char → Bool) (A : List Char)
    (hA : ∀ x ∈ A, p x = true) : A.takeWhile p = A := by
  induction A with
  | nil => rfl
  | cons a A ih =>
    rw [List.takeWhile_cons, hA a (List.mem_cons_self a A),
      ih (fun x hx => hA x (List.mem_cons_of_mem _ hx))]
    simp

theorem parsePyFloatCore_nodot (A : List Char) (hAne : A ≠ [])
    (hAv : validDigits 10 A) (hAdot : '.' ∉ A) :
    parsePyFloatCore A = Option.some ((pv 10 A : ℚ)) := by
  rw [parsePyFloatCore]
  have hAp : ∀ x ∈ A, (fun c => decide (c ≠ '.')) x = true := by
    intro x hx
    simp
    exact fun he => hAdot (he ▸ hx)
  rw [takeWhile_all _ A hAp, List.dropWhile_eq_nil_iff.mpr (fun x hx => hAp x hx)]
  rw [intParse_eq_pv 10 A hAne hAv]
  rfl

theorem parsePyFloat_neg (t : List Char) :
    parsePyFloat ('-' :: t) = (parsePyFloatCore t).map Neg.neg := rfl

theorem parsePyFloat_digit_head (c : Char) (t : List Char) (hc1 : ¬(c = '-'))
    (hc2 : ¬(c = '+')) : parsePyFloat (c :: t) = parsePyFloatCore (c :: t) := by
  rw [parsePyFloat]
  rw [if_neg hc1, if_neg hc2]

theorem natToBaseString_length_le (b n W : ℕ) (hb1 : 1 < b) (hW : 1 ≤ W)
    (hn : n < b ^ W) : (natToBaseString b n).length ≤ W := by
  by_cases h0 : n = 0
  · subst h0
    simp [natToBaseString]
    omega
  · rw [natToBaseString_length b n hb1 h0]
    have := Nat.log_lt_of_lt_pow h0 hn
    omega

theorem padLeftZeros_chars (w : ℕ) (s : List Char) (P : Char → Prop)
    (hP : P '0') (hs : ∀ c ∈ s, P c) : ∀ c ∈ padLeftZeros w s, P c := by
  intro c hc
  rw [padLeftZeros, List.mem_append] at hc
  rcases hc with h | h
  · rw [List.eq_of_mem_replicate h]
    exact hP
  · exact hs c h

theorem decString_legal (m : ℕ) :
    ∀ c ∈ natToBaseString 10 m, legalChar FxBase.dec c = true := by
  intro c hc
  obtain ⟨v, hv, rfl⟩ := natToBaseString_chars 10 m (by norm_num) (by norm_num) c hc
  exact legal_dec_digitChar v hv

theorem decString_no_dot (m : ℕ) : '.' ∉ natToBaseString 10 m := by
  intro hm
  obtain ⟨v, hv, he⟩ := natToBaseString_chars 10 m (by norm_num) (by norm_num) _ hm
  exact digitChar_ne_dot v (by omega) he.symm

theorem decString_no_comma (m : ℕ) : ',' ∉ natToBaseString 10 m := by
  intro hm
  obtain ⟨v, hv, he⟩ := natToBaseString_chars 10 m (by norm_num) (by norm_num) _ hm
  exact digitChar_ne_comma v (by omega) he.symm

theorem dec_frac_val (kabs WF : ℕ) :
    ((kabs / 2 ^ WF : ℕ) : ℚ) + ((kabs % 2 ^ WF * 5 ^ WF : ℕ) : ℚ) / 10 ^ WF =
      (kabs : ℚ) / 2 ^ WF := by
  have hdm := Nat.div_add_mod kabs (2 ^ WF)
  have hcast : (kabs : ℚ) =
      2 ^ WF * ((kabs / 2 ^ WF : ℕ) : ℚ) + ((kabs % 2 ^ WF : ℕ) : ℚ) := by
    exact_mod_cast hdm.symm
  have h10 : (10 : ℚ) ^ WF = 2 ^ WF * 5 ^ WF := by
    rw [← mul_pow]
    norm_num
  push_cast
  push_cast at hcast
  rw [h10]
  have h2 : (2 : ℚ) ^ WF ≠ 0 := by positivity
  have h5 : (5 : ℚ) ^ WF ≠ 0 := by positivity
  field_simp
  rw [hcast]
  ring

theorem digitChar_ne_plus (v : ℕ) (hv : v < 16) : digitChar v ≠ '+' := by
  interval_cases v <;> decide

theorem roundtrip_dec (WI WF : ℕ) (qm : QuantMode) (ov : OvflMode)
    (hqm : qm ≠ QuantMode.dsm) (k : ℤ)
    (hlo : -(2 ^ (WI + WF) : ℤ) ≤ k) (hhi : k ≤ 2 ^ (WI + WF) - 1) :
    roundtrip QFrmt.qfrac FxBase.dec ⟨(WI : ℤ), (WF : ℤ), qm, ov⟩
        ((k : ℚ) / (2 : ℚ) ^ WF) =
      Except.ok ((k : ℚ) / (2 : ℚ) ^ WF) := by
  set q : QDict := ⟨(WI : ℤ), (WF : ℤ), qm, ov⟩ with hq
  have hraise : quantRaises q.quant = false := by
    show quantRaises qm = false
    cases qm <;> simp_all [quantRaises]
  have hzp : (2 : ℚ) ^ q.WF = (2 : ℚ) ^ WF := by
    show (2 : ℚ) ^ ((WF : ℕ) : ℤ) = (2 : ℚ) ^ WF
    exact zpow_natCast 2 WF
  have hgval : ((k : ℚ) / (2 : ℚ) ^ WF) = (k : ℚ) / (2 : ℚ) ^ q.WF := by rw [hzp]
  obtain ⟨hg1, hg2⟩ := grid_bounds WI WF q rfl rfl k hlo hhi
  have hfix : fixpVal QFrmt.qfrac q ScalingMode.mult ((k : ℚ) / (2 : ℚ) ^ WF) =
      (k : ℚ) / (2 : ℚ) ^ WF := by
    rw [hgval]
    exact fixpVal_grid q ScalingMode.mult k hg1 hg2
  have hfixdiv : fixpVal QFrmt.qfrac q ScalingMode.div ((k : ℚ) / (2 : ℚ) ^ WF) =
      (k : ℚ) / (2 : ℚ) ^ WF := by
    rw [hgval]
    exact fixpVal_grid q ScalingMode.div k hg1 hg2
  by_cases hWF0 : WF = 0
  · -- no fractional part: the integer rendering branch
    have hqWF0 : q.WF = 0 := by
      show ((WF : ℕ) : ℤ) = 0
      rw [hWF0]
      rfl
    have hgk : (k : ℚ) / (2 : ℚ) ^ WF = (k : ℚ) := by
      rw [hWF0]
      norm_num
    have hrender : float2frmt QFrmt.qfrac FxBase.dec q ((k : ℚ) / (2 : ℚ) ^ WF) =
        Except.ok (intToDecString k) := by
      rw [float2frmt, hraise]
      simp only [Bool.false_eq_true, if_false]
      rw [hfix]
      rw [if_pos (Or.inl hqWF0), hgk, i64trunc_intCast]
    have hfixk : fixpVal QFrmt.qfrac q ScalingMode.div ((k : ℚ)) =
        (k : ℚ) / (2 : ℚ) ^ WF := by
      conv_lhs => rw [← hgk]
      rw [hfixdiv]
    rcases lt_trichotomy k 0 with hkneg | hk0 | hkpos
    · -- negative
      have hm : (-k).toNat ≠ 0 := by omega
      have hi2d : intToDecString k = '-' :: natToBaseString 10 (-k).toNat := by
        rw [intToDecString, if_pos hkneg]
      set t : List Char := natToBaseString 10 (-k).toNat with ht
      have hpre : frmtPreprocess FxBase.dec ('-' :: t) =
          Option.some ('-' :: t, frcPlaces ('-' :: t),
            ('-' :: t).filter (fun c => c ≠ '.')) := by
        apply frmtPreprocess_neg
        · intro c hc
          rcases List.mem_cons.mp hc with rfl | hc
          · decide
          · exact decString_legal _ c hc
        · intro hc
          rcases List.mem_cons.mp hc with h | hc
          · exact absurd h (by decide)
          · exact decString_no_comma _ hc
      have hparse : parsePyFloat ('-' :: t) = Option.some ((k : ℚ)) := by
        rw [parsePyFloat_neg,
          parsePyFloatCore_nodot t (natToBaseString_ne_nil 10 _)
            (natToBaseString_valid 10 _ (by norm_num) (by norm_num))
            (decString_no_dot _),
          ht, pv_natToBaseString 10 _ (by norm_num) (by norm_num)]
        rw [Option.map_some']
        congr 1
        have htn : ((-k).toNat : ℤ) = -k := Int.toNat_of_nonneg (by omega)
        have hcast : (((-k).toNat : ℕ) : ℚ) = -(k : ℚ) := by exact_mod_cast htn
        rw [hcast]
        ring
      unfold roundtrip
      rw [hrender, hi2d]
      unfold frmt2float_scalar
      dsimp only
      rw [hpre]
      dsimp only
      rw [hraise]
      simp only [Bool.false_eq_true, if_false]
      rw [hparse]
      simp only [Option.getD_some]
      rw [hfixk]
    · -- zero
      subst hk0
      have hi2d : intToDecString 0 = ['0'] := rfl
      have hpre : frmtPreprocess FxBase.dec ['0'] = Option.none := by
        rw [frmtPreprocess_nodot FxBase.dec ['0']
          (by intro c hc; simp at hc; subst hc; decide)
          (by decide) (by decide)]
        rw [if_pos (by decide)]
      unfold roundtrip
      rw [hrender, hi2d]
      unfold frmt2float_scalar
      dsimp only
      rw [hpre]
      dsimp only
      rw [hgk]
      norm_num
    · -- positive
      have hkt : k.toNat ≠ 0 := by omega
      have hi2d : intToDecString k = natToBaseString 10 k.toNat := by
        rw [intToDecString, if_neg (by omega)]
      set A : List Char := natToBaseString 10 k.toNat with hA
      obtain ⟨c, t, hct⟩ : ∃ c t, A = c :: t := by
        cases h : A with
        | nil => exact absurd h (natToBaseString_ne_nil 10 _)
        | cons c t => exact ⟨c, t, rfl⟩
      have hc0 : c ≠ '0' := by
        apply natToBaseString_head_ne_zero 10 k.toNat (by norm_num) (by norm_num) hkt
        rw [← hA, hct]
        rfl
      have hstrip : strip0 A = A := by
        rw [hct]
        exact strip0_cons_stop c t hc0
      have hpre : frmtPreprocess FxBase.dec A = Option.some (A, 0, A) := by
        rw [frmtPreprocess_nodot FxBase.dec A (decString_legal _)
          (decString_no_dot _) (decString_no_comma _)]
        rw [hstrip, if_neg (by rw [hct]; simp)]
      obtain ⟨v, hv, hcv⟩ := natToBaseString_chars 10 k.toNat (by norm_num)
        (by norm_num) c (by rw [← hA, hct]; exact List.mem_cons_self c t)
      have hparse : parsePyFloat A = Option.some ((k : ℚ)) := by
        rw [hct, parsePyFloat_digit_head c t
          (by rw [hcv]; exact digitChar_ne_minus v (by omega))
          (by rw [hcv]; exact digitChar_ne_plus v (by omega)), ← hct]
        rw [parsePyFloatCore_nodot A (by rw [hct]; simp)
          (natToBaseString_valid 10 _ (by norm_num) (by norm_num))
          (decString_no_dot _),
          hA, pv_natToBaseString 10 _ (by norm_num) (by norm_num)]
        congr 1
        have htn : (k.toNat : ℤ) = k := Int.toNat_of_nonneg (by omega)
        exact_mod_cast congrArg (fun z : ℤ => (z : ℚ)) htn
      unfold roundtrip
      rw [hrender, hi2d]
      unfold frmt2float_scalar
      dsimp only
      rw [hpre]
      dsimp only
      rw [hraise]
      simp only [Bool.false_eq_true, if_false]
      rw [hparse]
      simp only [Option.getD_some]
      rw [hfixk]
  · -- with fractional part: the ratToDecString branch
    have hWFpos : 1 ≤ WF := by omega
    have hqWFne : ¬(q.WF = 0 ∨ QFrmt.qfrac = QFrmt.qint) := by
      intro h
      rcases h with h | h
      · have h2 : ((WF : ℕ) : ℤ) = 0 := h
        exact hWF0 (by exact_mod_cast h2)
      · exact absurd h (by decide)
    have hqtoNat : q.WF.toNat = WF := by
      show ((WF : ℕ) : ℤ).toNat = WF
      simp
    have hrender : float2frmt QFrmt.qfrac FxBase.dec q ((k : ℚ) / (2 : ℚ) ^ WF) =
        Except.ok (ratToDecString ((k : ℚ) / (2 : ℚ) ^ WF) WF) := by
      rw [float2frmt, hraise]
      simp only [Bool.false_eq_true, if_false]
      rw [hfix]
      rw [if_neg hqWFne, hqtoNat]
    set kabs : ℕ := k.natAbs with hkabs
    set ip : ℕ := kabs / 2 ^ WF with hip
    set fnum : ℕ := kabs % 2 ^ WF * 5 ^ WF with hfnum
    set A : List Char := natToBaseString 10 ip with hA
    set B : List Char := padLeftZeros WF (natToBaseString 10 fnum) with hB
    have hBchars : ∀ c ∈ B, ∃ v, v < 10 ∧ c = digitChar v := by
      rw [hB]
      exact padLeftZeros_chars WF _ _ ⟨0, by norm_num, rfl⟩
        (natToBaseString_chars 10 fnum (by norm_num) (by norm_num))
    have hBleg : ∀ c ∈ B, legalChar FxBase.dec c = true := by
      intro c hc
      obtain ⟨v, hv, rfl⟩ := hBchars c hc
      exact legal_dec_digitChar v hv
    have hBdot : '.' ∉ B := by
      intro hc
      obtain ⟨v, hv, he⟩ := hBchars _ hc
      exact digitChar_ne_dot v (by omega) he.symm
    have hBcom : ',' ∉ B := by
      intro hc
      obtain ⟨v, hv, he⟩ := hBchars _ hc
      exact digitChar_ne_comma v (by omega) he.symm
    have hBvalid : validDigits 10 B := by
      intro c hc
      obtain ⟨v, hv, rfl⟩ := hBchars c hc
      rw [digitVal_digitChar 10 v (by norm_num) hv]
      rfl
    have hfnumlt : fnum < 10 ^ WF := by
      rw [hfnum]
      have h1 : kabs % 2 ^ WF < 2 ^ WF := Nat.mod_lt _ (by positivity)
      calc kabs % 2 ^ WF * 5 ^ WF < 2 ^ WF * 5 ^ WF :=
            mul_lt_mul_of_pos_right h1 (by positivity)
        _ = 10 ^ WF := by rw [← Nat.mul_pow]
    have hBlen : B.length = WF := by
      rw [hB, padLeftZeros_length]
      have := natToBaseString_length_le 10 fnum WF (by norm_num) hWFpos hfnumlt
      omega
    have hBne : B ≠ [] := by
      intro h
      apply hWF0
      rw [h] at hBlen
      simpa using hBlen.symm
    have hAne : A ≠ [] := natToBaseString_ne_nil 10 ip
    obtain ⟨c, t, hct⟩ : ∃ c t, A = c :: t := by
      cases h : A with
      | nil => exact absurd h hAne
      | cons c t => exact ⟨c, t, rfl⟩
    obtain ⟨v, hv, hcv⟩ := natToBaseString_chars 10 ip (by norm_num)
      (by norm_num) c (by rw [← hA, hct]; exact List.mem_cons_self c t)
    have hCore : parsePyFloatCore (A ++ '.' :: B) =
        Option.some ((kabs : ℚ) / 2 ^ WF) := by
      rw [parsePyFloatCore_parts A B hAne
        (natToBaseString_valid 10 ip (by norm_num) (by norm_num)) hBvalid
        (decString_no_dot ip) hBdot hBne]
      rw [hBlen, hA, hB, pv_natToBaseString 10 _ (by norm_num) (by norm_num),
        pv_padLeftZeros 10 (by norm_num),
        pv_natToBaseString 10 _ (by norm_num) (by norm_num)]
      rw [hip, hfnum, dec_frac_val kabs WF]
    have hparse : parsePyFloat (A ++ '.' :: B) =
        Option.some ((kabs : ℚ) / 2 ^ WF) := by
      rw [hct, List.cons_append, parsePyFloat_digit_head c (t ++ '.' :: B)
        (by rw [hcv]; exact digitChar_ne_minus v (by omega))
        (by rw [hcv]; exact digitChar_ne_plus v (by omega)),
        ← List.cons_append, ← hct]
      exact hCore
    have hValStrip : strip0w A = A := by
      rw [hA]
      exact strip0w_natToBaseString 10 ip (by norm_num) (by norm_num)
    have hpre : frmtPreprocess FxBase.dec (A ++ '.' :: B) =
        Option.some (A ++ '.' :: B, B.length, A ++ B) := by
      rw [frmtPreprocess_dot FxBase.dec A B (decString_legal ip) hBleg
        (by decide) (decString_no_dot ip) hBdot (decString_no_comma ip) hBcom]
      rw [hValStrip]
    by_cases hk : 0 ≤ k
    · -- non-negative value
      have hkq : ((k : ℚ)) = (kabs : ℚ) := by
        have h2 : ((kabs : ℕ) : ℤ) = k := by
          rw [hkabs]
          exact Int.natAbs_of_nonneg hk
        exact_mod_cast h2.symm
      have hgq : (k : ℚ) / (2 : ℚ) ^ WF = (kabs : ℚ) / 2 ^ WF := by rw [hkq]
      have hS : ratToDecString ((k : ℚ) / (2 : ℚ) ^ WF) WF = A ++ '.' :: B := by
        rw [hgq, ratToDecString_nonneg kabs WF, hA, hB, hip, hfnum]
      unfold roundtrip
      rw [hrender, hS]
      unfold frmt2float_scalar
      dsimp only
      rw [hpre]
      dsimp only
      rw [hraise]
      simp only [Bool.false_eq_true, if_false]
      rw [hparse]
      simp only [Option.getD_some]
      rw [← hgq, hfixdiv]
    · -- negative value
      have hkneg : k < 0 := by omega
      have hkabspos : 0 < kabs := by
        rw [hkabs]
        exact Int.natAbs_pos.mpr (by omega)
      have hkzq : (kabs : ℤ) = -k := by
        rw [hkabs]
        omega
      have hkq : ((k : ℚ)) = -((kabs : ℚ)) := by
        have h2 : ((kabs : ℕ) : ℚ) = -(k : ℚ) := by exact_mod_cast hkzq
        linarith
      have hgq : (k : ℚ) / (2 : ℚ) ^ WF = -((kabs : ℚ) / 2 ^ WF) := by
        rw [hkq]
        ring
      have hS : ratToDecString ((k : ℚ) / (2 : ℚ) ^ WF) WF =
          '-' :: (A ++ '.' :: B) := by
        rw [hgq, ratToDecString_neg kabs WF hkabspos, hA, hB, hip, hfnum]
      have hpre2 : frmtPreprocess FxBase.dec ('-' :: (A ++ '.' :: B)) =
          Option.some ('-' :: (A ++ '.' :: B), frcPlaces ('-' :: (A ++ '.' :: B)),
            ('-' :: (A ++ '.' :: B)).filter (fun c => c ≠ '.')) := by
        apply frmtPreprocess_neg
        · intro x hx
          rcases List.mem_cons.mp hx with rfl | hx
          · decide
          · rcases List.mem_append.mp hx with h | h
            · exact decString_legal ip x h
            · rcases List.mem_cons.mp h with rfl | h
              · decide
              · exact hBleg x h
        · intro hx
          rcases List.mem_cons.mp hx with h | hx
          · exact absurd h (by decide)
          · rcases List.mem_append.mp hx with h | h
            · exact decString_no_comma ip h
            · rcases List.mem_cons.mp h with h | h
              · exact absurd h (by decide)
              · exact hBcom h
      have hparse2 : parsePyFloat ('-' :: (A ++ '.' :: B)) =
          Option.some ((k : ℚ) / (2 : ℚ) ^ WF) := by
        rw [parsePyFloat_neg, hCore, Option.map_some']
        congr 1
        exact hgq.symm
      unfold roundtrip
      rw [hrender, hS]
      unfold frmt2float_scalar
      dsimp only
      rw [hpre2]
      dsimp only
      rw [hraise]
      simp only [Bool.false_eq_true, if_false]
      rw [hparse2]
      simp only [Option.getD_some]
      rw [hfixdiv]

theorem quant_output_form (qm : QuantMode) (z : ℚ) :
    (∃ m : ℤ, quantApply qm z = (m : ℚ)) ∨ quantApply qm z = z := by
  cases qm with
  | floor => exact Or.inl ⟨⌊z⌋, rfl⟩
  | round => exact Or.inl ⟨npRoundInt z, rfl⟩
  | fix =>
    left
    rw [quantApply, npTrunc]
    by_cases h : 0 ≤ z
    · exact ⟨⌊z⌋, by rw [if_pos h]⟩
    · exact ⟨⌈z⌉, by rw [if_neg h]⟩
  | ceil => exact Or.inl ⟨⌈z⌉, rfl⟩
  | rint => exact Or.inl ⟨npRoundInt z, rfl⟩
  | dsm => exact Or.inr rfl
  | none => exact Or.inr rfl

theorem quantApply_idem (qm : QuantMode) (z : ℚ) :
    quantApply qm (quantApply qm z) = quantApply qm z := by
  rcases quant_output_form qm z with ⟨m, hm⟩ | h
  · rw [hm, quantApply_intCast]
  · rw [h]
    exact h

theorem fixpQuantized_qfrac_formula (q : QDict) (sc : ScalingMode) (y : ℚ) :
    fixpQuantized QFrmt.qfrac q sc y =
      quantApply q.quant (y * (2 : ℚ) ^ q.WF) / (2 : ℚ) ^ q.WF := by
  rw [fixpQuantized, show scaleOf QFrmt.qfrac q = 1 from by simp [scaleOf]]
  by_cases h : sc = ScalingMode.mult ∨ sc = ScalingMode.multdiv
  · rw [if_pos h, mul_one]
  · rw [if_neg h]

theorem fixpQuantized_qfrac_idem (q : QDict) (sc : ScalingMode) (y : ℚ) :
    fixpQuantized QFrmt.qfrac q sc (fixpQuantized QFrmt.qfrac q sc y) =
      fixpQuantized QFrmt.qfrac q sc y := by
  have h2 : ((2 : ℚ) ^ q.WF) ≠ 0 := zpow_ne_zero _ (by norm_num)
  rw [fixpQuantized_qfrac_formula, fixpQuantized_qfrac_formula,
    div_mul_cancel₀ _ h2, quantApply_idem]

theorem quant_MIN_fixed (WI WF : ℕ) (q : QDict) (hWI : q.WI = (WI : ℤ))
    (hWF : q.WF = (WF : ℤ)) (sc : ScalingMode) :
    fixpQuantized QFrmt.qfrac q sc (MINof QFrmt.qfrac q) =
      MINof QFrmt.qfrac q := by
  have hmin : MINof QFrmt.qfrac q =
      ((-(2 ^ (WI + WF)) : ℤ) : ℚ) / (2 : ℚ) ^ q.WF := by
    rw [MIN_qfrac, hWI, hWF]
    push_cast
    rw [zpow_natCast, zpow_natCast, pow_add]
    field_simp
  rw [hmin, fixpQuantized_qfrac_int]

theorem quant_MAX_fixed (WI WF : ℕ) (q : QDict) (hWI : q.WI = (WI : ℤ))
    (hWF : q.WF = (WF : ℤ)) (sc : ScalingMode) :
    fixpQuantized QFrmt.qfrac q sc (MAXof QFrmt.qfrac q) =
      MAXof QFrmt.qfrac q := by
  have hmax : MAXof QFrmt.qfrac q =
      ((2 ^ (WI + WF) - 1 : ℤ) : ℚ) / (2 : ℚ) ^ q.WF := by
    rw [MAX_qfrac, hWI, hWF]
    push_cast
    rw [zpow_natCast, zpow_natCast, zpow_neg, zpow_natCast, pow_add]
    have h2 : ((2 : ℚ) ^ WF) ≠ 0 := by positivity
    field_simp
  rw [hmax, fixpQuantized_qfrac_int]

theorem qfrac_min_le_max (WI WF : ℕ) (q : QDict) (hWI : q.WI = (WI : ℤ))
    (hWF : q.WF = (WF : ℤ)) :
    MINof QFrmt.qfrac q ≤ MAXof QFrmt.qfrac q := by
  rw [MIN_qfrac, MAX_qfrac, hWI, hWF, zpow_natCast, zpow_neg, zpow_natCast]
  have h1 : ((2 : ℚ) ^ WF)⁻¹ ≤ 1 := by
    rw [inv_le_one_iff₀]
    right
    exact one_le_pow₀ (by norm_num)
  have h2 : (1 : ℚ) ≤ (2 : ℚ) ^ WI := one_le_pow₀ (by norm_num)
  linarith

theorem fixpVal_qfrac_idem (WI WF : ℕ) (qm : QuantMode) (ov : OvflMode)
    (hov : ov ≠ OvflMode.wrap) (sc : ScalingMode) (x : ℚ) :
    fixpVal QFrmt.qfrac ⟨(WI : ℤ), (WF : ℤ), qm, ov⟩ sc
        (fixpVal QFrmt.qfrac ⟨(WI : ℤ), (WF : ℤ), qm, ov⟩ sc x) =
      fixpVal QFrmt.qfrac ⟨(WI : ℤ), (WF : ℤ), qm, ov⟩ sc x := by
  set q : QDict := ⟨(WI : ℤ), (WF : ℤ), qm, ov⟩ with hq
  have hval : ∀ y, fixpVal QFrmt.qfrac q sc y =
      ovflApply QFrmt.qfrac q (fixpQuantized QFrmt.qfrac q sc y) := by
    intro y
    rw [fixpVal, show scaleOf QFrmt.qfrac q = 1 from by simp [scaleOf]]
    by_cases h : sc = ScalingMode.div ∨ sc = ScalingMode.multdiv
    · rw [if_pos h, div_one]
    · rw [if_neg h]
  rw [hval x, hval]
  set z := fixpQuantized QFrmt.qfrac q sc x with hz
  cases ov with
  | wrap => exact absurd rfl hov
  | none =>
    have hO : ∀ y, ovflApply QFrmt.qfrac q y = y := fun y => rfl
    rw [hO, hO, hz]
    exact fixpQuantized_qfrac_idem q sc x
  | sat =>
    have hmm : MINof QFrmt.qfrac q ≤ MAXof QFrmt.qfrac q :=
      qfrac_min_le_max WI WF q rfl rfl
    have hOsat : ∀ y, ovflApply QFrmt.qfrac q y =
        if y < MINof QFrmt.qfrac q then MINof QFrmt.qfrac q
        else if MAXof QFrmt.qfrac q < y then MAXof QFrmt.qfrac q else y := by
      intro y
      rw [ovflApply]
      simp only [decide_eq_true_eq]
    rw [hOsat z, hOsat]
    by_cases hn : z < MINof QFrmt.qfrac q
    · rw [if_pos hn]
      rw [quant_MIN_fixed WI WF q rfl rfl sc]
      rw [if_neg (not_lt.mpr (le_refl _)), if_neg (not_lt.mpr hmm)]
    · rw [if_neg hn]
      by_cases hp : MAXof QFrmt.qfrac q < z
      · rw [if_pos hp, quant_MAX_fixed WI WF q rfl rfl sc]
        rw [if_neg (not_lt.mpr hmm), if_neg (not_lt.mpr (le_refl _))]
      · rw [if_neg hp]
        rw [hz, fixpQuantized_qfrac_idem, ← hz, if_neg hn, if_neg hp]

theorem fixpSt_counter_invariant (fmt : QFrmt) (q : QDict) (sc : ScalingMode)
    (y : ℚ) (c : Counters) (hov : q.ovfl ≠ OvflMode.none)
    (hinv : c.N_over = c.N_over_pos + c.N_over_neg) (v : ℚ) (c' : Counters)
    (h : fixpSt fmt q sc y c = Except.ok (v, c')) :
    c.N ≤ c'.N ∧ c.N_over_pos ≤ c'.N_over_pos ∧
      c.N_over_neg ≤ c'.N_over_neg ∧ c.N_over ≤ c'.N_over ∧
      c'.N_over = c'.N_over_pos + c'.N_over_neg := by
  rw [fixpSt] at h
  by_cases hqr : quantRaises q.quant
  · rw [if_pos hqr] at h
    exact absurd h (by simp)
  · rw [if_neg hqr] at h
    simp only [Except.ok.injEq, Prod.mk.injEq] at h
    obtain ⟨hv, hc⟩ := h
    subst hc
    rw [fixpCnt, if_neg hov]
    dsimp only
    refine ⟨Nat.le_add_right _ _, Nat.le_add_right _ _, Nat.le_add_right _ _,
      ?_, ?_⟩
    · rw [hinv]
      omega
    · omega

theorem ceil_as_floor (q : ℚ) : ⌈q⌉ = -⌊-q⌋ := by
  rw [Int.floor_neg, neg_neg]

theorem ceilLog2_7 : ceilLog2 7 = 3 := by
  rw [ceilLog2]
  have h1 : Nat.clog 2 7 ≤ 3 :=
    (Nat.le_pow_iff_clog_le (by norm_num)).mp (by norm_num)
  have h2 : ¬(Nat.clog 2 7 ≤ 2) := by
    intro h
    have h3 := (Nat.le_pow_iff_clog_le (by norm_num)).mpr h
    omega
  omega

theorem ceilLog2_2 : ceilLog2 2 = 1 := by
  rw [ceilLog2]
  have h1 : Nat.clog 2 2 ≤ 1 :=
    (Nat.le_pow_iff_clog_le (by norm_num)).mp (by norm_num)
  have h2 : ¬(Nat.clog 2 2 ≤ 0) := by
    intro h
    have h3 := (Nat.le_pow_iff_clog_le (by norm_num)).mpr h
    omega
  omega

/-- C1: the claimed range invariant `fixp(x) ∈ [MIN, MAX]` fails for
    overflow mode 'wrap': with `WI=1, WF=6`, input `-6` wraps to `2`,
    which exceeds `MAX = 2 - 2^-6`. -/
theorem C1_wrap_violates_range :
    fixpVal QFrmt.qfrac ⟨1, 6, QuantMode.round, OvflMode.wrap⟩
        ScalingMode.mult (-6) = 2 ∧
      MAXof QFrmt.qfrac ⟨1, 6, QuantMode.round, OvflMode.wrap⟩ < 2 := by
  constructor
  · norm_num +decide [fixpVal, fixpQuantized, ovflApply, quantApply, npRound,
      npRoundInt, npSign, npTrunc, scaleOf, MSBof, MAXof, MINof, LSBof,
      ceil_as_floor]
  · norm_num +decide [MAXof, MSBof, LSBof]

/-- C2 (counterexample): the round-trip codec law fails for the CSD base:
    the representable grid value `1/2` of the `WI=0, WF=2` fixpoint format
    (a fixed point of `fixp`) reads back as `3/4`. -/
theorem C2_csd_counterexample :
    fixpVal QFrmt.qfrac ⟨0, 2, QuantMode.round, OvflMode.sat⟩
        ScalingMode.mult (1/2) = 1/2 ∧
      roundtrip QFrmt.qfrac FxBase.csd ⟨0, 2, QuantMode.round, OvflMode.sat⟩
        (1/2) = Except.ok (3/4) ∧
      ((3 : ℚ)/4) ≠ 1/2 := by
  refine ⟨?_, ?_, by norm_num⟩
  · norm_num +decide [fixpVal, fixpQuantized, ovflApply, quantApply, npRound,
      npRoundInt, npSign, npTrunc, scaleOf, MSBof, MAXof, MINof, LSBof,
      ceil_as_floor]
  · have habs : |(1:ℚ)/2| = 1/2 := abs_of_pos (by norm_num)
    have hrender : float2frmt QFrmt.qfrac FxBase.csd
        ⟨0, 2, QuantMode.round, OvflMode.sat⟩ (1/2) =
        Except.ok ['+', '.', '0', '-'] := by
      norm_num +decide [float2frmt, dec2csd, dec2csdLoop, habs, fixpVal,
        fixpQuantized, ovflApply, quantApply, npRound, npRoundInt, npSign,
        npTrunc, scaleOf, MSBof, MAXof, MINof, LSBof, ceil_as_floor,
        quantRaises]
    have hparse : frmt2float_scalar QFrmt.qfrac FxBase.csd
        ⟨0, 2, QuantMode.round, OvflMode.sat⟩ ['+', '.', '0', '-'] =
        Except.ok (3/4) := by
      norm_num +decide [frmt2float_scalar, frmtPreprocess, legalChar,
        frcPlaces, csd2dec, fixpVal, fixpQuantized, ovflApply, quantApply,
        npRound, npRoundInt, npSign, npTrunc, scaleOf, MSBof, MAXof, MINof,
        LSBof, ceil_as_floor, quantRaises, List.enum, List.enumFrom,
        List.foldl_cons, List.foldl_nil]
    unfold roundtrip
    rw [hrender]
    exact hparse

/-- C2 (amended): for the fixpoint format 'qfrac' with non-negative word
    lengths, any non-raising quantization mode and any overflow mode, every
    value on the representable grid round-trips exactly through text for
    the bases decimal, binary and hex. -/
theorem C2_roundtrip_amended (WI WF : ℕ) (qm : QuantMode) (ov : OvflMode)
    (hqm : qm ≠ QuantMode.dsm) (k : ℤ)
    (hlo : -(2 ^ (WI + WF) : ℤ) ≤ k) (hhi : k ≤ 2 ^ (WI + WF) - 1) :
    roundtrip QFrmt.qfrac FxBase.dec ⟨(WI : ℤ), (WF : ℤ), qm, ov⟩
        ((k : ℚ) / (2 : ℚ) ^ WF) = Except.ok ((k : ℚ) / (2 : ℚ) ^ WF) ∧
    roundtrip QFrmt.qfrac FxBase.bin ⟨(WI : ℤ), (WF : ℤ), qm, ov⟩
        ((k : ℚ) / (2 : ℚ) ^ WF) = Except.ok ((k : ℚ) / (2 : ℚ) ^ WF) ∧
    roundtrip QFrmt.qfrac FxBase.hex ⟨(WI : ℤ), (WF : ℤ), qm, ov⟩
        ((k : ℚ) / (2 : ℚ) ^ WF) = Except.ok ((k : ℚ) / (2 : ℚ) ^ WF) :=
  ⟨roundtrip_dec WI WF qm ov hqm k hlo hhi,
   roundtrip_bin WI WF qm ov hqm k hlo hhi,
   roundtrip_hex WI WF qm ov hqm k hlo hhi⟩

theorem C2_roundtrip_amended_witness :
    roundtrip QFrmt.qfrac FxBase.dec ⟨1, 2, QuantMode.round, OvflMode.sat⟩
        (((3 : ℤ) : ℚ) / (2 : ℚ) ^ (2 : ℕ)) =
      Except.ok (((3 : ℤ) : ℚ) / (2 : ℚ) ^ (2 : ℕ)) ∧
    roundtrip QFrmt.qfrac FxBase.bin ⟨1, 2, QuantMode.round, OvflMode.sat⟩
        (((3 : ℤ) : ℚ) / (2 : ℚ) ^ (2 : ℕ)) =
      Except.ok (((3 : ℤ) : ℚ) / (2 : ℚ) ^ (2 : ℕ)) ∧
    roundtrip QFrmt.qfrac FxBase.hex ⟨1, 2, QuantMode.round, OvflMode.sat⟩
        (((3 : ℤ) : ℚ) / (2 : ℚ) ^ (2 : ℕ)) =
      Except.ok (((3 : ℤ) : ℚ) / (2 : ℚ) ^ (2 : ℕ)) :=
  C2_roundtrip_amended 1 2 QuantMode.round OvflMode.sat (by decide) 3
    (by decide) (by decide)

/-- C3: `init` computes the word growth `DW` from `len(p['QCB'])`, the
    number of keys of the QCB quantizer dictionary (7), not from the number
    of filter taps: with two taps the product word format gets
    `WI = WI_input + WI_coeff + 3` instead of the specified
    `WI_input + WI_coeff + ceil(log2(2)) = WI_input + WI_coeff + 1`. -/
theorem C3_word_growth_bug :
    ∃ st, IIR_DF1_init QFrmt.qfrac p6 [1, 1/2] [1, 1/2] = Except.ok st ∧
      st.q_mul.WI = p6.QI.WI + p6.QCB.WI + (ceilLog2 p6.QCB_nkeys : ℤ) ∧
      st.q_mul.WI ≠
        p6.QI.WI + p6.QCB.WI +
          (ceilLog2 ([1, (1:ℚ)/2] : List ℚ).length : ℤ) := by
  refine ⟨_, rfl, rfl, ?_⟩
  show (0 : ℤ) + 0 + (ceilLog2 7 : ℤ) ≠ 0 + 0 + (ceilLog2 2 : ℤ)
  rw [ceilLog2_7, ceilLog2_2]
  norm_num

/-- C4 (counterexample): `fixp` is not idempotent for every configuration:
    in the integer format 'qint' the input scaling by `2**WF` is applied
    again on the second call, so quantizing `1` twice yields `4 ≠ 2`. -/
theorem C4_counterexample :
    fixpVal QFrmt.qint ⟨2, 1, QuantMode.round, OvflMode.none⟩ ScalingMode.mult
        (fixpVal QFrmt.qint ⟨2, 1, QuantMode.round, OvflMode.none⟩
          ScalingMode.mult 1) ≠
      fixpVal QFrmt.qint ⟨2, 1, QuantMode.round, OvflMode.none⟩
        ScalingMode.mult 1 := by
  norm_num +decide [fixpVal, fixpQuantized, ovflApply, quantApply, npRound,
    npRoundInt, npSign, npTrunc, scaleOf, MSBof, MAXof, MINof, LSBof,
    ceil_as_floor]

/-- C4 (amended): in the fixpoint format 'qfrac' with non-negative word
    lengths and overflow mode 'sat' or 'none' (not 'wrap'), `fixp` is
    idempotent for every quantization mode, scaling and input. -/
theorem C4_idempotent_amended (WI WF : ℕ) (qm : QuantMode) (ov : OvflMode)
    (hov : ov ≠ OvflMode.wrap) (sc : ScalingMode) (x : ℚ) :
    fixpVal QFrmt.qfrac ⟨(WI : ℤ), (WF : ℤ), qm, ov⟩ sc
        (fixpVal QFrmt.qfrac ⟨(WI : ℤ), (WF : ℤ), qm, ov⟩ sc x) =
      fixpVal QFrmt.qfrac ⟨(WI : ℤ), (WF : ℤ), qm, ov⟩ sc x :=
  fixpVal_qfrac_idem WI WF qm ov hov sc x

theorem C4_idempotent_amended_witness :
    fixpVal QFrmt.qfrac ⟨1, 2, QuantMode.round, OvflMode.sat⟩ ScalingMode.mult
        (fixpVal QFrmt.qfrac ⟨1, 2, QuantMode.round, OvflMode.sat⟩
          ScalingMode.mult (1/3)) =
      fixpVal QFrmt.qfrac ⟨1, 2, QuantMode.round, OvflMode.sat⟩
        ScalingMode.mult (1/3) :=
  C4_idempotent_amended 1 2 QuantMode.round OvflMode.sat (by decide)
    ScalingMode.mult (1/3)

/-- C5: with `WI=1, WF=6` and overflow mode 'wrap', quantizing
    `MAX + LSB` yields exactly `MIN`; and in general the wrap branch of
    `ovflApply` computes `y - 4*MSB*fix((sign(y)*2*MSB + y)/(4*MSB))` on
    every overflowing value. -/
theorem C5_wrap_arithmetic :
    fixpVal QFrmt.qfrac ⟨1, 6, QuantMode.round, OvflMode.wrap⟩
        ScalingMode.mult
        (MAXof QFrmt.qfrac ⟨1, 6, QuantMode.round, OvflMode.wrap⟩ +
          LSBof QFrmt.qfrac ⟨1, 6, QuantMode.round, OvflMode.wrap⟩) =
      MINof QFrmt.qfrac ⟨1, 6, QuantMode.round, OvflMode.wrap⟩ ∧
    ∀ (q : QDict) (yq : ℚ), q.ovfl = OvflMode.wrap →
      (yq < MINof QFrmt.qfrac q ∨ MAXof QFrmt.qfrac q < yq) →
      ovflApply QFrmt.qfrac q yq =
        yq - 4 * MSBof QFrmt.qfrac q *
          npTrunc ((npSign yq * 2 * MSBof QFrmt.qfrac q + yq) /
            (4 * MSBof QFrmt.qfrac q)) := by
  constructor
  · norm_num +decide [fixpVal, fixpQuantized, ovflApply, quantApply, npRound,
      npRoundInt, npSign, npTrunc, scaleOf, MSBof, MAXof, MINof, LSBof,
      ceil_as_floor]
  · intro q yq hov hout
    rw [ovflApply, hov]
    simp only [Bool.or_eq_true, decide_eq_true_eq]
    rw [if_pos hout.symm]

theorem C5_wrap_arithmetic_witness :
    ((2 : ℚ) < MINof QFrmt.qfrac ⟨1, 6, QuantMode.round, OvflMode.wrap⟩ ∨
      MAXof QFrmt.qfrac ⟨1, 6, QuantMode.round, OvflMode.wrap⟩ < 2) ∧
    ovflApply QFrmt.qfrac ⟨1, 6, QuantMode.round, OvflMode.wrap⟩ 2 =
      2 - 4 * MSBof QFrmt.qfrac ⟨1, 6, QuantMode.round, OvflMode.wrap⟩ *
        npTrunc ((npSign 2 * 2 *
            MSBof QFrmt.qfrac ⟨1, 6, QuantMode.round, OvflMode.wrap⟩ + 2) /
          (4 * MSBof QFrmt.qfrac ⟨1, 6, QuantMode.round, OvflMode.wrap⟩)) :=
  ⟨Or.inr (by norm_num +decide [MAXof, MSBof, LSBof]),
   C5_wrap_arithmetic.2 ⟨1, 6, QuantMode.round, OvflMode.wrap⟩ 2 rfl
     (Or.inr (by norm_num +decide [MAXof, MSBof, LSBof]))⟩

/-- C6 (counterexample): `fxfilter` folds the product quantizer's overflow
    total into the accumulator's `N_over` without touching its pos/neg
    split, so after one filter call on an overflowing input the accumulator
    counter state violates `N_over = N_over_pos + N_over_neg`. -/
theorem C6_fold_counterexample :
    ∃ st y zb za st',
      IIR_DF1_init QFrmt.qfrac p6 [1, 1] [1, 0] = Except.ok st ∧
      fxfilter QFrmt.qfrac st (PyInput.arr [100]) Option.none Option.none =
        Except.ok (y, zb, za, st') ∧
      st'.c_acc = ⟨1, 1, 0, 2⟩ ∧
      st'.c_acc.N_over ≠ st'.c_acc.N_over_pos + st'.c_acc.N_over_neg := by
  refine ⟨_, _, _, _, _, rfl, rfl, ?_, ?_⟩
  · norm_num +decide [fixpSt, fixpCnt, fixpListSt, fixpCntList, fixpVal,
      fixpQuantized, ovflApply, quantApply, npRound, npRoundInt, npSign,
      npTrunc, scaleOf, MSBof, MAXof, MINof, LSBof, ceil_as_floor, overNeg,
      overPos, quantRaises, sanitizeQ, set_qdict_wordlengths, resetN,
      fxfilterLoop, pyMulEW, ziaShift, ziSeed, pyLen, quant_coeffs, p6,
      ceilLog2_7]
  · norm_num +decide [fixpSt, fixpCnt, fixpListSt, fixpCntList, fixpVal,
      fixpQuantized, ovflApply, quantApply, npRound, npRoundInt, npSign,
      npTrunc, scaleOf, MSBof, MAXof, MINof, LSBof, ceil_as_floor, overNeg,
      overPos, quantRaises, sanitizeQ, set_qdict_wordlengths, resetN,
      fxfilterLoop, pyMulEW, ziaShift, ziSeed, pyLen, quant_coeffs, p6,
      ceilLog2_7]

/-- C6 (amended): for one `fixp` call with overflow handling enabled
    (`ovfl ≠ 'none'`), starting from a counter state satisfying
    `N_over = N_over_pos + N_over_neg`, all four counters are monotonically
    non-decreasing and the equality still holds afterwards. -/
theorem C6_counters_amended (fmt : QFrmt) (q : QDict) (sc : ScalingMode)
    (y : ℚ) (c : Counters) (hov : q.ovfl ≠ OvflMode.none)
    (hinv : c.N_over = c.N_over_pos + c.N_over_neg) (v : ℚ) (c' : Counters)
    (h : fixpSt fmt q sc y c = Except.ok (v, c')) :
    c.N ≤ c'.N ∧ c.N_over_pos ≤ c'.N_over_pos ∧
      c.N_over_neg ≤ c'.N_over_neg ∧ c.N_over ≤ c'.N_over ∧
      c'.N_over = c'.N_over_pos + c'.N_over_neg :=
  fixpSt_counter_invariant fmt q sc y c hov hinv v c' h

theorem C6_counters_amended_witness :
    (3 : ℕ) ≤ 4 ∧ (1 : ℕ) ≤ 2 ∧ (1 : ℕ) ≤ 1 ∧ (2 : ℕ) ≤ 3 ∧
      (3 : ℕ) = 2 + 1 :=
  C6_counters_amended QFrmt.qfrac ⟨0, 2, QuantMode.round, OvflMode.sat⟩
    ScalingMode.mult 5 ⟨3, 1, 1, 2⟩ (by decide) rfl (3/4) ⟨4, 2, 1, 3⟩
    (by norm_num +decide [fixpSt, fixpCnt, fixpVal, fixpQuantized, ovflApply,
      quantApply, npRound, npRoundInt, npSign, npTrunc, scaleOf, MSBof, MAXof,
      MINof, LSBof, ceil_as_floor, overNeg, overPos, quantRaises])

/-- C7: `init` performs no length check on the coefficient arrays:
    configuring with `len(b) = 3 ≠ 2 = len(a)` succeeds (returns a state
    with `L = 3`) instead of surfacing an error. -/
theorem C7_mismatched_lengths_no_error :
    ([1, 0, 0] : List ℚ).length ≠ ([1, 0] : List ℚ).length ∧
    ∃ st, IIR_DF1_init QFrmt.qfrac p6 [1, 0, 0] [1, 0] = Except.ok st ∧
      st.L = 3 := by
  refine ⟨by decide, _, rfl, rfl⟩

/-- C8: `fxfilter` calls `len(x)` on its input unconditionally
    (`np.zeros(len(x))`), so a `None` input or a scalar input raises
    `TypeError` instead of being treated as an impulse. -/
theorem C8_scalar_none_input_type_error :
    ∃ st, IIR_DF1_init QFrmt.qfrac p6 [1, 1] [1, 0] = Except.ok st ∧
      fxfilter QFrmt.qfrac st PyInput.none Option.none Option.none =
        Except.error "TypeError: object of type NoneType has no len()" ∧
      fxfilter QFrmt.qfrac st (PyInput.scalar 1) Option.none Option.none =
        Except.error "TypeError: object of type float has no len()" := by
  refine ⟨_, rfl, rfl, rfl⟩

/-- C9 (counterexample): `set_qdict` stores `WI = int(WI)` without taking
    the absolute value: a supplied `WI = -3` is stored negative. -/
theorem C9_negative_WI_counterexample :
    set_qdict_wordlengths (-3) (-5) = (-3, 5) ∧
      ¬(0 ≤ (set_qdict_wordlengths (-3) (-5)).1) := by
  refine ⟨by decide, by decide⟩

/-- C9 (amended): `set_qdict` sanitization keeps `WI` unchanged and stores
    `WF = |WF|`, which is always non-negative; only `WF` is sanitized by
    absolute value. -/
theorem C9_sanitize_amended (WI WF : ℤ) :
    (set_qdict_wordlengths WI WF).1 = WI ∧
      (set_qdict_wordlengths WI WF).2 = |WF| ∧
      0 ≤ (set_qdict_wordlengths WI WF).2 :=
  ⟨rfl, rfl, abs_nonneg WF⟩

/-- C10: the value returned by a `fixp` call does not depend on the mutable
    counter state: two calls with the same input, configuration and scaling
    but different accumulated counters return the same value (or both
    raise). -/
theorem C10_counter_independence (fmt : QFrmt) (q : QDict) (sc : ScalingMode)
    (y : ℚ) (c₁ c₂ : Counters) :
    Except.map Prod.fst (fixpSt fmt q sc y c₁) =
      Except.map Prod.fst (fixpSt fmt q sc y c₂) := by
  rw [fixpSt, fixpSt]
  by_cases h : quantRaises q.quant
  · rw [if_pos h, if_pos h]
  · rw [if_neg h, if_neg h]
    rfl
